import Mathlib

/-!
Verification of the toonpy decoder/encoder ("TOON" format) against its
natural-language specification.

The repository ships only `toonpy/__init__.py` (re-exporting `loads` and
`dumps`) and the decoder test-suite; `toonpy/decoder.py` and
`toonpy/encoder.py` themselves are absent.  Every operational definition
below is therefore modelled from the specification (sections cited in the
doc comments), with the repository's own tests (`tests/test_decoder.py`)
used as the binding authority wherever they pin behaviour the prose leaves
open or contradicts.  Characters are handled as `List Char`, mirroring the
per-character scanning the spec describes; recursion over the cursor is
expressed with an explicit fuel argument (always instantiated with a
sufficient bound) so that every function reduces inside the kernel.
-/

namespace Toonpy

/-- Modelled from the spec: §3 "Value — a closed variant:
`Null | Bool | Int | Float | String | List<Value> | Map<String, Value>`".
A `Float` is represented by its source token (which always matches
`^-?[0-9]+\.[0-9]+$`); IEEE arithmetic is never performed by the decoder,
so the token is a faithful shallow embedding of the float scalar. -/
inductive Value where
  | null : Value
  | bool (b : Bool) : Value
  | int (n : Int) : Value
  | float (tok : String) : Value
  | str (s : String) : Value
  | list (xs : List Value) : Value
  | map (es : List (String × Value)) : Value
deriving Repr

/-- Whitespace characters (space, tab, carriage return); newline is the
line separator and never occurs inside a normalized line. -/
def isWS (c : Char) : Bool := c = ' ' || c = '\t' || c = '\r'

/-- Drop leading whitespace. -/
def trimL (cs : List Char) : List Char := cs.dropWhile isWS

/-- Drop trailing whitespace. -/
def trimR (cs : List Char) : List Char := (cs.reverse.dropWhile isWS).reverse

/-- Trim both ends, as Python's `str.strip`. -/
def trim (cs : List Char) : List Char := trimL (trimR cs)

/-- Split a character stream at newline characters. -/
def splitLines : List Char → List (List Char)
  | [] => [[]]
  | c :: rest =>
    if c = '\n' then [] :: splitLines rest
    else
      match splitLines rest with
      | [] => [[c]]
      | l :: ls => (c :: l) :: ls

/-- Modelled from the spec: §3 "NormalizedLine —
`{ indent: non-negative integer, content: string (raw, post-strip) }`". -/
structure NLine where
  indent : Nat
  content : List Char
deriving Repr, DecidableEq

/-- Normalize one physical line: strip trailing whitespace, drop the line
if blank, otherwise record leading-space indentation and content. -/
def normLine (ln : List Char) : Option NLine :=
  let t := trimR ln
  let content := t.dropWhile (· = ' ')
  if content.isEmpty then none
  else some ⟨(t.takeWhile (· = ' ')).length, content⟩

/-- Modelled from the spec: §4.1 Line Normalizer — "splits the document into
physical lines, strips trailing whitespace, discards blank/whitespace-only
lines, and records each line's leading-space indentation width"
(indentation = count of leading space characters; tabs are opaque). -/
def normalizeL (cs : List Char) : List NLine :=
  (splitLines cs).filterMap normLine

/-- A token is wrapped in a matching pair of single or double quotes
(spec §4.2 step 2): length at least 2, first and last characters equal
and a quote character. -/
def isQuotedL : List Char → Bool
  | [] => false
  | c :: rest => !rest.isEmpty && (c = '"' || c = '\'') && rest.getLast? = some c

/-- Strip the outer quote pair of a quoted token. -/
def stripQuotes (cs : List Char) : List Char := (cs.drop 1).dropLast

/-- Integer grammar `^-?[0-9]+$` (spec §4.2 step 5: optional leading `-`,
digits only, no internal separators). -/
def isIntTok (cs : List Char) : Bool :=
  let ds := if cs.head? = some '-' then cs.tail else cs
  !ds.isEmpty && ds.all (·.isDigit)

/-- The digit body of a float token: digits, one `.`, digits
(spec §4.2 step 6). -/
def floatBody (cs : List Char) : Bool :=
  let a := cs.takeWhile (·.isDigit)
  match cs.dropWhile (·.isDigit) with
  | '.' :: b => !a.isEmpty && !b.isEmpty && b.all (·.isDigit)
  | _ => false

/-- Float grammar `^-?[0-9]+\.[0-9]+$`. -/
def isFloatTok (cs : List Char) : Bool :=
  floatBody (if cs.head? = some '-' then cs.tail else cs)

/-- Numeric value of a digit string. -/
def parseNatChars (cs : List Char) : Nat :=
  cs.foldl (fun a c => a * 10 + (c.toNat - 48)) 0

/-- Integer value of a token matching the integer grammar. -/
def parseIntChars (cs : List Char) : Int :=
  if cs.head? = some '-' then -(parseNatChars cs.tail : Int)
  else (parseNatChars cs : Int)

/-- Modelled from the spec: §4.2 Scalar Coercer, in order: empty →
`String("")`; quoted → inner text verbatim; `true`/`false` → Bool;
`null` → Null; integer grammar → Int; float grammar → Float;
otherwise `String(token)` unchanged. -/
def coerceScalarL (tok : List Char) : Value :=
  if tok.isEmpty then .str ""
  else if isQuotedL tok then .str (stripQuotes tok).asString
  else if tok = ['t', 'r', 'u', 'e'] then .bool true
  else if tok = ['f', 'a', 'l', 's', 'e'] then .bool false
  else if tok = ['n', 'u', 'l', 'l'] then .null
  else if isIntTok tok then .int (parseIntChars tok)
  else if isFloatTok tok then .float tok.asString
  else .str tok.asString

/-- String-level wrapper of the Scalar Coercer. -/
def coerceScalar (tok : String) : Value := coerceScalarL tok.toList

/-- Worker of the CSV Field Splitter: scan characters, tracking an open
quote (`some q`); a comma outside quotes ends the field; a quote character
at the (whitespace-only) start of a field opens a quoted field that may
contain commas and colons (spec §4.3). -/
def csvSplitAux : List Char → Option Char → List Char → List (List Char)
  | [], _, cur => [cur]
  | c :: rest, some q, cur =>
    if c = q then csvSplitAux rest none (cur ++ [c])
    else csvSplitAux rest (some q) (cur ++ [c])
  | c :: rest, none, cur =>
    if c = ',' then cur :: csvSplitAux rest none []
    else if (c = '"' || c = '\'') && (trimL cur).isEmpty then
      csvSplitAux rest (some c) (cur ++ [c])
    else csvSplitAux rest none (cur ++ [c])

/-- Modelled from the spec: §4.3 CSV Field Splitter — "splits a
comma-separated fragment into fields honoring quoted fields that may
themselves contain commas/colons"; output fields are raw (still-quoted)
and whitespace-trimmed per field. -/
def csvSplit (cs : List Char) : List (List Char) :=
  (csvSplitAux cs none []).map trim

/-- Worker for the first top-level colon: a colon not inside quotes
(spec §4.4 mapping entry). -/
def topSplitAux : List Char → Option Char → List Char → Option (List Char × List Char)
  | [], _, _ => none
  | c :: rest, some q, acc =>
    if c = q then topSplitAux rest none (acc ++ [c])
    else topSplitAux rest (some q) (acc ++ [c])
  | c :: rest, none, acc =>
    if c = ':' then some (acc, rest)
    else if c = '"' || c = '\'' then topSplitAux rest (some c) (acc ++ [c])
    else topSplitAux rest none (acc ++ [c])

/-- Modelled from the spec: §4.4 — "split the line on the first top-level
`:` (the one not inside quotes) into key and value-remainder", both
trimmed. `none` when the line has no top-level colon. -/
def topSplit (cs : List Char) : Option (List Char × List Char) :=
  (topSplitAux cs none []).map fun p => (trim p.1, trim p.2)

/-- Strip a quote pair from a header column name (spec §4.3: header column
names are unquoted literally, no type coercion). -/
def unquoteField (cs : List Char) : List Char :=
  if isQuotedL cs then stripQuotes cs else cs

/-- Modelled from the spec: §4.4/§6 — recognize a tabular-array header
`key[N]{col1,col2,...}` possibly followed by `:` (the key empty for the
root form `[N]{...}`).  The key must contain no colon (otherwise the line
is a mapping entry).  Returns (trimmed key, N, unquoted column names). -/
def matchTabular (cs : List Char) : Option (List Char × Nat × List (List Char)) :=
  let key := trim (cs.takeWhile (· ≠ '['))
  if key.all (· ≠ ':') then
    match cs.dropWhile (· ≠ '[') with
    | '[' :: r1 =>
      let numPart := r1.takeWhile (· ≠ ']')
      if !numPart.isEmpty && numPart.all (·.isDigit) then
        match r1.dropWhile (· ≠ ']') with
        | ']' :: '{' :: r2 =>
          let colsPart := r2.takeWhile (· ≠ '}')
          match r2.dropWhile (· ≠ '}') with
          | '}' :: tail =>
            if tail = [] || tail = [':'] then
              some (key, parseNatChars numPart, (csvSplit colsPart).map unquoteField)
            else none
          | _ => none
        | _ => none
      else none
    | _ => none
  else none

/-- Modelled from the spec: §4.4/§6 — recognize a declared-length list
marker `key[N]:` (the key empty for the root form `[N]:`), with the
trimmed remainder after the colon as the inline CSV fragment (empty when
the items follow on subsequent lines, §4.5). -/
def matchInlineList (cs : List Char) : Option (List Char × Nat × List Char) :=
  let key := trim (cs.takeWhile (· ≠ '['))
  if key.all (· ≠ ':') then
    match cs.dropWhile (· ≠ '[') with
    | '[' :: r1 =>
      let numPart := r1.takeWhile (· ≠ ']')
      if !numPart.isEmpty && numPart.all (·.isDigit) then
        match r1.dropWhile (· ≠ ']') with
        | ']' :: ':' :: tail => some (key, parseNatChars numPart, trim tail)
        | _ => none
      else none
    | _ => none
  else none

/-- Duplicate keys: last write wins, first position kept (spec §3). -/
def mapUpdate : List (String × Value) → String → Value → List (String × Value)
  | [], k, v => [(k, v)]
  | (k', v') :: rest, k, v =>
    if k' = k then (k', v) :: rest else (k', v') :: mapUpdate rest k v

/-- Build an insertion-ordered map from parsed entries, applying
last-write-wins for duplicate keys (spec §3). -/
def buildMap (es : List (String × Value)) : List (String × Value) :=
  es.foldl (fun acc p => mapUpdate acc p.1 p.2) []

/-- Modelled from the spec: §4.6 — zip one data row's fields positionally
against the header columns: a present field is independently type-coerced,
a missing trailing column is `Null`, extra fields are ignored. -/
def rowToPairs : List (List Char) → List (List Char) → List (String × Value)
  | [], _ => []
  | c :: cols, [] => (c.asString, Value.null) :: rowToPairs cols []
  | c :: cols, f :: fields => (c.asString, coerceScalarL f) :: rowToPairs cols fields

/-- Modelled from the spec: §4.6 Tabular-Array Parser — each data line is
split into fields and zipped against the columns to build a Map per row
("adaptive schema": per-cell type inference). -/
def parseTabular (cols : List (List Char)) (rows : List NLine) : List Value :=
  rows.map fun r => Value.map (buildMap (rowToPairs cols (csvSplit r.content)))

/-- Split an inline CSV fragment and coerce each field; the list is bound
with length at most the declared N (spec §4.4: "a List of length ≤ N"). -/
def inlineCSVList (n : Nat) (csv : List Char) : List Value :=
  ((csvSplit csv).map coerceScalarL).take n

/-- Modelled from the spec: §4.5 List-Items Parser, per item line — strip
a leading `- `, then resolve to a one-line mapping or a plain scalar.  The
spec's "contains a top-level `key: value`" test is refined to what the
repository's tests pin down (`test_inline_dict_edge_cases`: `http://url`
and `'quoted:key': val` both stay strings): the line is partitioned at its
first colon, and it is a mapping exactly when that colon ends the line
(value `Null`) or is followed by a space. -/
def itemBody (cs : List Char) : List Char :=
  if cs.take 2 = ['-', ' '] then trim (cs.drop 2) else cs

/-- Resolve one list-item line (see `itemBody` for the provenance). -/
def parseListItem (cs : List Char) : Value :=
  let body := itemBody cs
  let key := body.takeWhile (· ≠ ':')
  match body.dropWhile (· ≠ ':') with
  | ':' :: rest =>
    if rest.isEmpty then .map [((trim key).asString, .null)]
    else if rest.head? = some ' ' then
      .map [((trim key).asString, coerceScalarL (trim rest))]
    else coerceScalarL body
  | _ => coerceScalarL body

/-- Modelled from the spec: §4.5 — consume at most N item lines from the
list's scope; fewer than N resulting items is valid (no padding). -/
def listItems (n : Nat) (sub : List NLine) : List Value :=
  (sub.take n).map fun x => parseListItem x.content

mutual

/-- Modelled from the spec: §4.4 Block Parser, value form — parse a slice
of lines (a block scope) into a Map, a List (root tabular / root inline
list forms), or a single scalar when the block is exactly one non-block
line; an empty slice is an empty Map (§7 "Exhausted input mid-recursion
... yields an empty container").  `fuel` strictly exceeds twice the number
of lines whenever the parser is entered. -/
def parseValueF : Nat → List NLine → Value
  | 0, _ => .null
  | _ + 1, [] => .map []
  | fuel + 1, l :: rest =>
    match matchTabular l.content with
    | some ([], n, cols) => .list (parseTabular cols (rest.take n))
    | _ =>
      match matchInlineList l.content with
      | some ([], n, csv) =>
        if !csv.isEmpty then .list (inlineCSVList n csv)
        else .list (listItems n (rest.takeWhile fun x => l.indent < x.indent))
      | _ =>
        if rest.isEmpty && (topSplit l.content).isNone
            && (matchTabular l.content).isNone && (matchInlineList l.content).isNone then
          coerceScalarL l.content
        else .map (buildMap (parseEntriesF fuel (l :: rest)))

/-- Modelled from the spec: §4.4 Block Parser, entry loop — dispatch each
line of the current block to tabular-array, declared-length list, or
mapping-entry handling; a line with no top-level colon and no list marker
is silently skipped (§7).  A mapping entry whose same-line remainder is
itself `[]` or `[N]: v1, v2, ...` binds a List (behaviour pinned by
`test_inline_csv_list` and `test_malformed_lines_and_empty_blocks`); an
empty remainder recurses into the lines indented strictly deeper. -/
def parseEntriesF : Nat → List NLine → List (String × Value)
  | 0, _ => []
  | _ + 1, [] => []
  | fuel + 1, l :: rest =>
    match matchTabular l.content with
    | some (key, n, cols) =>
      if !key.isEmpty then
        (key.asString, Value.list (parseTabular cols (rest.take n)))
          :: parseEntriesF fuel (rest.drop n)
      else parseEntriesF fuel rest
    | none =>
      match matchInlineList l.content with
      | some (key, n, csv) =>
        if !key.isEmpty then
          if !csv.isEmpty then
            (key.asString, Value.list (inlineCSVList n csv)) :: parseEntriesF fuel rest
          else
            let sub := rest.takeWhile fun x => l.indent < x.indent
            (key.asString, Value.list (listItems n sub))
              :: parseEntriesF fuel (rest.drop sub.length)
        else parseEntriesF fuel rest
      | none =>
        match topSplit l.content with
        | some (k, rem) =>
          if rem.isEmpty then
            let sub := rest.takeWhile fun x => l.indent < x.indent
            (k.asString, parseValueF fuel sub) :: parseEntriesF fuel (rest.drop sub.length)
          else if rem = ['[', ']'] then
            (k.asString, Value.list []) :: parseEntriesF fuel rest
          else
            match matchInlineList rem with
            | some ([], n, csv) =>
              if !csv.isEmpty then
                (k.asString, Value.list (inlineCSVList n csv)) :: parseEntriesF fuel rest
              else
                let sub := rest.takeWhile fun x => l.indent < x.indent
                (k.asString, Value.list (listItems n sub))
                  :: parseEntriesF fuel (rest.drop sub.length)
            | _ => (k.asString, coerceScalarL rem) :: parseEntriesF fuel rest
        | none => parseEntriesF fuel rest

end

/-- Modelled from the spec: §6 decode entry point (exported as `loads` in
`toonpy/__init__.py`) — normalize the document, return `Null` for an empty
or whitespace-only document, otherwise parse the whole line sequence as
the root block.  The fuel `2·lines + 1` is strictly more than any chain of
sub-parses can consume. -/
def loads (s : String) : Value :=
  let ls := normalizeL s.toList
  if ls.isEmpty then .null else parseValueF (2 * ls.length + 1) ls

/-! ### Basic helper lemmas -/

theorem toList_append (a b : String) : (a ++ b).toList = a.toList ++ b.toList := rfl

theorem asString_toList (s : String) : s.toList.asString = s := rfl

theorem toList_asString (l : List Char) : l.asString.toList = l := rfl

theorem takeWhile_append_all {α : Type} (p : α → Bool) {A : List α} (B : List α)
    (h : ∀ a ∈ A, p a) : (A ++ B).takeWhile p = A ++ B.takeWhile p := by
  induction A with
  | nil => rfl
  | cons x xs ih =>
    simp only [List.cons_append, List.takeWhile_cons, h x (by simp)]
    simp [ih (fun a ha => h a (by simp [ha]))]

theorem dropWhile_append_all {α : Type} (p : α → Bool) {A : List α} (B : List α)
    (h : ∀ a ∈ A, p a) : (A ++ B).dropWhile p = B.dropWhile p := by
  induction A with
  | nil => rfl
  | cons x xs ih =>
    simp only [List.cons_append, List.dropWhile_cons, h x (by simp)]
    exact ih (fun a ha => h a (by simp [ha]))

/-- The scalar coercion of a token wrapped in a quote pair strips the pair
and returns the inner text verbatim. -/
theorem coerce_quote_pair (q : Char) (s : List Char) (hq : q = '"' ∨ q = '\'') :
    coerceScalarL (q :: s ++ [q]) = .str s.asString := by
  have hqd : isQuotedL (q :: s ++ [q]) = true := by
    simp only [isQuotedL, List.getLast?_concat]
    rcases hq with h | h <;> simp [h]
  have hemp : (q :: s ++ [q]).isEmpty = false := rfl
  simp only [coerceScalarL, hemp, hqd, Bool.false_eq_true, if_false, if_true]
  simp [stripQuotes]

/-! ### C2/C3: Scalar Coercer claims -/

/-- C2: for every raw unquoted, non-keyword token, the Scalar Coercer
yields `Int` exactly when the token matches `^-?[0-9]+$`, `Float` exactly
when it matches `^-?[0-9]+\.[0-9]+$`, and any other such token is returned
unchanged as a `String` (no other numeric shapes are accepted). -/
theorem C2_numeric_grammar_strictness (tok : List Char)
    (hq : isQuotedL tok = false)
    (ht : tok ≠ "true".toList) (hf : tok ≠ "false".toList) (hn : tok ≠ "null".toList) :
    coerceScalarL tok =
      if isIntTok tok then .int (parseIntChars tok)
      else if isFloatTok tok then .float tok.asString
      else .str tok.asString := by
  have ht' : tok ≠ ['t', 'r', 'u', 'e'] := ht
  have hf' : tok ≠ ['f', 'a', 'l', 's', 'e'] := hf
  have hn' : tok ≠ ['n', 'u', 'l', 'l'] := hn
  cases tok with
  | nil => rfl
  | cons c cs =>
    simp only [coerceScalarL, List.isEmpty_cons, hq, Bool.false_eq_true, if_false,
      if_neg ht', if_neg hf', if_neg hn']

/-- C2 witness: the token `192.168.1.1` is unquoted and non-keyword, and
the coercer leaves it as a string (it fails both numeric grammars). -/
theorem C2_numeric_grammar_strictness_witness :
    isQuotedL "192.168.1.1".toList = false ∧
      coerceScalarL "192.168.1.1".toList =
        if isIntTok "192.168.1.1".toList then .int (parseIntChars "192.168.1.1".toList)
        else if isFloatTok "192.168.1.1".toList then .float "192.168.1.1".toList.asString
        else .str "192.168.1.1".toList.asString :=
  ⟨rfl, C2_numeric_grammar_strictness _ (by decide) (by decide) (by decide) (by decide)⟩

/-- C3: for every string S, coercing the token formed by wrapping S in a
matching pair of double (or single) quotes yields `String(S)` verbatim:
the quotes are stripped and no further type inference is applied. -/
theorem C3_quoting_escape_hatch (S : String) :
    coerceScalar ("\"" ++ S ++ "\"") = .str S ∧
      coerceScalar ("'" ++ S ++ "'") = .str S := by
  constructor
  · have h : ("\"" ++ S ++ "\"").toList = '"' :: S.toList ++ ['"'] := by
      rw [toList_append, toList_append]; rfl
    rw [coerceScalar, h, coerce_quote_pair _ _ (Or.inl rfl), asString_toList]
  · have h : ("'" ++ S ++ "'").toList = '\'' :: S.toList ++ ['\''] := by
      rw [toList_append, toList_append]; rfl
    rw [coerceScalar, h, coerce_quote_pair _ _ (Or.inr rfl), asString_toList]

/-! ### C4: tabular row padding/truncation -/

/-- C4: zipping a data row against the header columns coerces each present
field independently, binds `Null` for every missing trailing column, and
ignores fields beyond the header width (the result has exactly one pair
per column, in header order). -/
theorem C4_tabular_row_padding (cols fields : List (List Char)) :
    rowToPairs cols fields =
      (cols.zip fields).map (fun p => (p.1.asString, coerceScalarL p.2))
        ++ (cols.drop fields.length).map (fun c => (c.asString, Value.null)) := by
  induction cols generalizing fields with
  | nil => cases fields <;> rfl
  | cons c cs ih =>
    cases fields with
    | nil => simp [rowToPairs, ih []]
    | cons f fs => simp [rowToPairs, ih fs]

/-! ### More helper lemmas -/

theorem drop_length_takeWhile {α : Type} (p : α → Bool) (l : List α) :
    l.drop (l.takeWhile p).length = l.dropWhile p := by
  induction l with
  | nil => rfl
  | cons x xs ih =>
    by_cases h : p x
    · simp [List.takeWhile_cons, List.dropWhile_cons, h, ih]
    · simp [List.takeWhile_cons, List.dropWhile_cons, h]

theorem head?_dropWhile_false {α : Type} (p : α → Bool) (l : List α) (c : α)
    (h : (l.dropWhile p).head? = some c) : p c = false := by
  induction l with
  | nil => simp [List.dropWhile] at h
  | cons x xs ih =>
    by_cases hx : p x
    · exact ih (by simpa [List.dropWhile_cons, hx] using h)
    · rw [List.dropWhile_cons, if_neg (by simpa using hx)] at h
      simp only [List.head?_cons, Option.some.injEq] at h
      subst h
      simpa using hx

theorem splitLines_chars (cs : List Char) :
    ∀ l ∈ splitLines cs, ∀ c ∈ l, c ∈ cs ∧ c ≠ '\n' := by
  induction cs with
  | nil =>
    intro l hl c hc
    simp [splitLines] at hl
    subst hl
    simp at hc
  | cons x xs ih =>
    intro l hl c hc
    by_cases hx : x = '\n'
    · rw [splitLines, if_pos hx] at hl
      rcases List.mem_cons.mp hl with h | h
      · subst h; simp at hc
      · have := ih l h c hc
        exact ⟨List.mem_cons_of_mem _ this.1, this.2⟩
    · rw [splitLines, if_neg hx] at hl
      rcases hsp : splitLines xs with _ | ⟨hd, tl⟩
      · rw [hsp] at hl
        simp at hl
        subst hl
        simp at hc
        subst hc
        exact ⟨List.mem_cons_self _ _, hx⟩
      · rw [hsp] at hl
        rcases List.mem_cons.mp hl with h | h
        · subst h
          rcases List.mem_cons.mp hc with h' | h'
          · subst h'; exact ⟨List.mem_cons_self _ _, hx⟩
          · have := ih hd (by rw [hsp]; exact List.mem_cons_self _ _) c h'
            exact ⟨List.mem_cons_of_mem _ this.1, this.2⟩
        · have := ih l (by rw [hsp]; exact List.mem_cons_of_mem _ h) c hc
          exact ⟨List.mem_cons_of_mem _ this.1, this.2⟩

/-! ### C1: decode totality on empty / whitespace-only input -/

/-- C1: `loads` is a total function into `Value` (it is a Lean `def`, so
it returns exactly one `Value` for every input and can raise nothing);
in particular every input consisting only of whitespace characters
(including the empty string) decodes to `Null`. -/
theorem C1_whitespace_null (s : String)
    (h : ∀ c ∈ s.toList, c = ' ' ∨ c = '\t' ∨ c = '\r' ∨ c = '\n') :
    loads s = .null := by
  have hnorm : normalizeL s.toList = [] := by
    rw [normalizeL, List.filterMap_eq_nil_iff]
    intro l hl
    have hws : ∀ c ∈ l, isWS c := by
      intro c hc
      have h2 := splitLines_chars s.toList l hl c hc
      rcases h c h2.1 with h3 | h3 | h3 | h3
      · simp [isWS, h3]
      · simp [isWS, h3]
      · simp [isWS, h3]
      · exact absurd h3 h2.2
    have htrim : trimR l = [] := by
      rw [trimR, List.dropWhile_eq_nil_iff.mpr (by intro x hx; exact hws x (by simpa using hx))]
      rfl
    simp [normLine, htrim]
  rw [loads, hnorm]
  rfl

/-- C1 witness: a concrete whitespace-only document decodes to `Null`. -/
theorem C1_whitespace_null_witness :
    (∀ c ∈ ("  \n\t \r\n " : String).toList, c = ' ' ∨ c = '\t' ∨ c = '\r' ∨ c = '\n') ∧
      loads "  \n\t \r\n " = .null :=
  ⟨by decide, C1_whitespace_null _ (by decide)⟩

/-! ### C5: declared length exceeding the available data -/

/-- C5: when the declared count N of a tabular array or declared-length
list exceeds the available data lines, decoding succeeds with exactly
min(N, available) = available elements: the tabular entry consumes
`rest.take n` rows and its list has `rest.length` elements, and the
declared-length list takes at most its scope, yielding `sub.length`
items — never an error and no synthesized entries. -/
theorem C5_declared_length_tolerance :
    (∀ (fuel : Nat) (l : NLine) (rest : List NLine) (key : List Char) (n : Nat)
        (cols : List (List Char)),
      matchTabular l.content = some (key, n, cols) → key ≠ [] → rest.length < n →
        parseEntriesF (fuel + 1) (l :: rest) =
          (key.asString, Value.list (parseTabular cols (rest.take n)))
            :: parseEntriesF fuel (rest.drop n) ∧
        (parseTabular cols (rest.take n)).length = rest.length) ∧
    (∀ (fuel : Nat) (l : NLine) (rest : List NLine) (key : List Char) (n : Nat),
      matchTabular l.content = none →
        matchInlineList l.content = some (key, n, []) → key ≠ [] →
        (rest.takeWhile fun x => l.indent < x.indent).length < n →
        parseEntriesF (fuel + 1) (l :: rest) =
          (key.asString,
            Value.list (listItems n (rest.takeWhile fun x => l.indent < x.indent)))
            :: parseEntriesF fuel
                (rest.drop (rest.takeWhile fun x => l.indent < x.indent).length) ∧
        (listItems n (rest.takeWhile fun x => l.indent < x.indent)).length =
          (rest.takeWhile fun x => l.indent < x.indent).length) := by
  constructor
  · intro fuel l rest key n cols hm hk hlt
    constructor
    · simp [parseEntriesF, hm, List.isEmpty_iff, hk]
    · simp [parseTabular, List.length_take, Nat.le_of_lt hlt, Nat.min_eq_right]
  · intro fuel l rest key n hmt hm hk hlt
    constructor
    · simp [parseEntriesF, hmt, hm, List.isEmpty_iff, hk]
    · simp [listItems, List.length_take, Nat.le_of_lt hlt, Nat.min_eq_right]

/-- C5 witness: a tabular header declaring 2 rows with no data line, and a
list header declaring 2 items with a single item line. -/
theorem C5_declared_length_tolerance_witness :
    ((parseTabular ["a".toList] (([] : List NLine).take 2)).length = 0) ∧
    ((listItems 2 (([⟨2, "- 1".toList⟩] : List NLine).takeWhile
        fun x => (⟨0, "list[2]:".toList⟩ : NLine).indent < x.indent)).length = 1) := by
  constructor
  · exact (C5_declared_length_tolerance.1 0 ⟨0, "t[2]{a}".toList⟩ [] "t".toList 2
      ["a".toList] (by decide) (by decide) (by decide)).2
  · exact (C5_declared_length_tolerance.2 0 ⟨0, "list[2]:".toList⟩ [⟨2, "- 1".toList⟩]
      "list".toList 2 (by decide) (by decide) (by decide) (by decide)).2

/-! ### C6: indentation scoping of nested blocks -/

/-- C6: for a mapping entry opening a nested block (empty same-line
remainder), the Block Parser binds as the block's content exactly the
following lines of strictly greater indentation; every bound line has
indentation strictly greater than the key line's, and the first
subsequent line of indentation ≤ the key's is not consumed — the parent
resumes the entry loop at exactly that line. -/
theorem C6_indentation_scoping (fuel : Nat) (l : NLine) (rest : List NLine) (k : List Char)
    (h1 : matchTabular l.content = none) (h2 : matchInlineList l.content = none)
    (h3 : topSplit l.content = some (k, [])) :
    parseEntriesF (fuel + 1) (l :: rest) =
      (k.asString, parseValueF fuel (rest.takeWhile fun x => l.indent < x.indent))
        :: parseEntriesF fuel (rest.dropWhile fun x => l.indent < x.indent) ∧
    (∀ x ∈ rest.takeWhile (fun x => l.indent < x.indent), l.indent < x.indent) ∧
    (∀ hd, (rest.dropWhile fun x => l.indent < x.indent).head? = some hd →
      hd.indent ≤ l.indent) ∧
    rest.takeWhile (fun x => l.indent < x.indent)
        ++ rest.dropWhile (fun x => l.indent < x.indent) = rest := by
  refine ⟨?_, ?_, ?_, List.takeWhile_append_dropWhile _ _⟩
  · rw [← drop_length_takeWhile (fun x => l.indent < x.indent) rest]
    simp [parseEntriesF, h1, h2, h3]
  · intro x hx
    simpa using List.mem_takeWhile_imp hx
  · intro hd hhd
    have := head?_dropWhile_false _ _ _ hhd
    simpa using this

/-- C6 witness: key `level2:` at indent 2 followed by one deeper line and
one line back at indent 2 (from `test_indentation_termination`). -/
theorem C6_indentation_scoping_witness :
    parseEntriesF 5 [⟨2, "level2:".toList⟩, ⟨4, "val: 1".toList⟩, ⟨2, "back_to_2: 2".toList⟩] =
      ("level2".toList.asString,
        parseValueF 4 ([⟨4, "val: 1".toList⟩, ⟨2, "back_to_2: 2".toList⟩].takeWhile
          fun x => (⟨2, "level2:".toList⟩ : NLine).indent < x.indent))
        :: parseEntriesF 4 ([⟨4, "val: 1".toList⟩, ⟨2, "back_to_2: 2".toList⟩].dropWhile
          fun x => (⟨2, "level2:".toList⟩ : NLine).indent < x.indent) :=
  (C6_indentation_scoping 4 ⟨2, "level2:".toList⟩
    [⟨4, "val: 1".toList⟩, ⟨2, "back_to_2: 2".toList⟩] "level2".toList
    (by decide) (by decide) (by decide)).1

/-! ### C7: malformed lines are skipped -/

/-- C7: a line with no top-level colon and no recognized list marker is
skipped without binding any key, and decoding continues with the
remaining lines unchanged; concretely, a document with such a line
between two valid entries still decodes both entries and raises no
error. -/
theorem C7_malformed_line_skipped :
    (∀ (fuel : Nat) (l : NLine) (rest : List NLine),
      matchTabular l.content = none → matchInlineList l.content = none →
      topSplit l.content = none →
      parseEntriesF (fuel + 1) (l :: rest) = parseEntriesF fuel rest) ∧
    loads "valid: 1\nkey_with_no_separator\nafter: 2" =
      .map [("valid", .int 1), ("after", .int 2)] := by
  constructor
  · intro fuel l rest h1 h2 h3
    simp [parseEntriesF, h1, h2, h3]
  · rfl

/-- C7 witness: the skip equation applied to the malformed line
`key_with_no_separator` followed by a valid entry. -/
theorem C7_malformed_line_skipped_witness :
    parseEntriesF 3 [⟨0, "key_with_no_separator".toList⟩, ⟨0, "valid: 1".toList⟩] =
      parseEntriesF 2 [⟨0, "valid: 1".toList⟩] :=
  C7_malformed_line_skipped.1 2 ⟨0, "key_with_no_separator".toList⟩
    [⟨0, "valid: 1".toList⟩] (by decide) (by decide) (by decide)

/-! ### C8: list-item inline-mapping rule (corrected) -/

/-- C8 counterexample: the claim says every item line containing a
top-level `key: value` pair (colon not inside quotes) resolves to a
one-element mapping.  The repository's own test
(`test_inline_dict_edge_cases`) requires `'quoted:key': val` and
`http://url` to stay plain strings, although both contain a top-level
colon with a non-empty remainder — so the List-Items Parser returns a
`String`, not a mapping, on these lines. -/
theorem C8_counterexample :
    topSplit "'quoted:key': val".toList = some ("'quoted:key'".toList, "val".toList) ∧
    "val".toList ≠ [] ∧
    parseListItem "'quoted:key': val".toList = .str "'quoted:key': val" ∧
    topSplit "http://url".toList = some ("http".toList, "//url".toList) ∧
    parseListItem "http://url".toList = .str "http://url" :=
  ⟨rfl, by decide, rfl, rfl, rfl⟩

/-- C8 (amended): an item line resolves to a one-element mapping exactly
when its body's first colon ends the line (value `Null`) or is directly
followed by a space (value coerced); any other item line — including
lines whose colons are never followed by a space, and lines with no colon
at all — resolves to a plain scalar through the Scalar Coercer. -/
theorem C8_item_mapping_rule :
    (∀ (cs k rest : List Char), itemBody cs = k ++ ':' :: rest → ':' ∉ k →
      parseListItem cs =
        if rest = [] then .map [((trim k).asString, Value.null)]
        else if rest.head? = some ' ' then
          .map [((trim k).asString, coerceScalarL (trim rest))]
        else coerceScalarL (itemBody cs)) ∧
    (∀ cs : List Char, ':' ∉ itemBody cs → parseListItem cs = coerceScalarL (itemBody cs)) := by
  constructor
  · intro cs k rest hsplit hk
    have hkall : ∀ c ∈ k, (c ≠ ':' : Bool) := by
      intro c hc
      simp only [ne_eq, decide_eq_true_eq]
      exact fun h => hk (h ▸ hc)
    have htake : (itemBody cs).takeWhile (· ≠ ':') = k := by
      rw [hsplit, takeWhile_append_all _ _ hkall, List.takeWhile_cons]
      simp
    have hdrop : (itemBody cs).dropWhile (· ≠ ':') = ':' :: rest := by
      rw [hsplit, dropWhile_append_all _ _ hkall, List.dropWhile_cons]
      simp
    rw [parseListItem]
    simp only [htake, hdrop]
    rcases rest with _ | ⟨c, rest'⟩
    · simp
    · simp only [List.isEmpty_cons, Bool.false_eq_true, if_false, List.head?_cons,
        reduceCtorEq]
  · intro cs hnc
    have hall : ∀ c ∈ itemBody cs, (c ≠ ':' : Bool) := by
      intro c hc
      simp only [ne_eq, decide_eq_true_eq]
      exact fun h => hnc (h ▸ hc)
    have hdrop : (itemBody cs).dropWhile (· ≠ ':') = [] :=
      List.dropWhile_eq_nil_iff.mpr hall
    rw [parseListItem]
    simp only [hdrop]

/-- C8 witness: the rule applied to `- simple_key: value` (mapping),
and to a colon-free line `text` (scalar). -/
theorem C8_item_mapping_rule_witness :
    parseListItem "- simple_key: value".toList =
      (if (" value".toList : List Char) = [] then
        Value.map [((trim "simple_key".toList).asString, Value.null)]
      else if (" value".toList : List Char).head? = some ' ' then
        Value.map [((trim "simple_key".toList).asString,
          coerceScalarL (trim " value".toList))]
      else coerceScalarL (itemBody "- simple_key: value".toList)) ∧
    parseListItem "text".toList = coerceScalarL (itemBody "text".toList) := by
  constructor
  · exact C8_item_mapping_rule.1 "- simple_key: value".toList "simple_key".toList
      " value".toList (by decide) (by decide)
  · exact C8_item_mapping_rule.2 "text".toList (by decide)

/-! ### C10: detached inline-list value form -/

/-- C10: a mapping entry whose same-line value remainder is itself an
inline list `[N]: v1, v2, ...` (the bracketed length after the key's
colon instead of attached to the key) decodes to a List bound to that
key — concretely on the documents of `test_inline_csv_list` and
`test_complex_mixed_structure`. -/
theorem C10_detached_inline_list :
    loads "data:\n  vals: [3]: 10, 20, 30" =
      .map [("data", .map [("vals", .list [.int 10, .int 20, .int 30])])] ∧
    loads "server:\n  config:\n    ports: [2]: 80, 443" =
      .map [("server", .map [("config", .map [("ports", .list [.int 80, .int 443])])])] :=
  ⟨rfl, rfl⟩

/-! ### Encoder (external collaborator), modelled from the spec -/

/-- Decimal digit character. -/
def digitChar : Nat → Char
  | 0 => '0'
  | 1 => '1'
  | 2 => '2'
  | 3 => '3'
  | 4 => '4'
  | 5 => '5'
  | 6 => '6'
  | 7 => '7'
  | 8 => '8'
  | _ => '9'

/-- Decimal digits of a natural number. -/
def natChars (n : Nat) : List Char :=
  if h : n < 10 then [digitChar n]
  else natChars (n / 10) ++ [digitChar (n % 10)]
decreasing_by exact Nat.div_lt_self (Nat.lt_of_lt_of_le (by norm_num) (Nat.le_of_not_lt h)) (by norm_num)

/-- Decimal rendering of an integer (leading `-` for negatives). -/
def intChars (n : Int) : List Char :=
  if n < 0 then '-' :: natChars n.natAbs else natChars n.natAbs

/-- Render one scalar `Value` as a token the Scalar Coercer maps back:
keywords for `Null`/`Bool`, decimal digits for `Int`, the stored token for
`Float`, and the string wrapped in double quotes (the §4.2 escape hatch)
for `String`. -/
def encScalar : Value → List Char
  | .null => "null".toList
  | .bool true => "true".toList
  | .bool false => "false".toList
  | .int n => intChars n
  | .float t => t.toList
  | .str s => '"' :: s.toList ++ ['"']
  | _ => "null".toList

def isScalarB : Value → Bool
  | .null => true
  | .bool _ => true
  | .int _ => true
  | .float _ => true
  | .str _ => true
  | _ => false

/-- Join CSV cells with `, ` (decoder-side `csvSplit` splits and trims). -/
def joinCells : List (List Char) → List Char
  | [] => []
  | [c] => c
  | c :: cs => c ++ ',' :: ' ' :: joinCells cs

/-- Header columns of a tabular-eligible list: the keys of its first row. -/
def tabColsOf : List Value → List String
  | .map es :: _ => es.map Prod.fst
  | _ => []

def isTabRow (cols : List String) : Value → Bool
  | .map es => decide (es.map Prod.fst = cols) && es.all fun p => isScalarB p.2
  | _ => false

/-- A nonempty list of uniform maps of scalars (tabular-array-eligible). -/
def isTabularB (xs : List Value) : Bool :=
  !(tabColsOf xs).isEmpty && !xs.isEmpty && xs.all (isTabRow (tabColsOf xs))

/-- One line of physical text for a tabular data row. -/
def encRow (r : Value) : List Char :=
  match r with
  | .map es => joinCells (es.map fun p => encScalar p.2)
  | _ => []

/-- Header content `key[N]{col1, col2}:` for a tabular array (empty key
for the root form). -/
def encTabHeader (k : List Char) (xs : List Value) : List Char :=
  k ++ ('[' :: (natChars xs.length ++
    (']' :: '{' :: (joinCells ((tabColsOf xs).map String.toList) ++ ['}', ':']))))

/-- Content `key[N]: v1, v2, ...` for a nonempty inline list (empty key
for the root form). -/
def encInlineList (k : List Char) (xs : List Value) : List Char :=
  k ++ ('[' :: (natChars xs.length ++ (']' :: ':' :: ' ' :: joinCells (xs.map encScalar))))

/-- Modelled from the spec: §6/§8 Encode entry point is an external
collaborator whose output `decode` must map back (`encoder.py` is absent
from src/); it emits the grammar of §6: `key: scalar` entries, `key:` plus
a deeper block for nested Maps (`key: []` for an empty List), the inline
CSV form for Lists of scalars, and the tabular header-plus-rows form for
Lists of uniform Maps. -/
def encEntries (i : Nat) : List (String × Value) → List NLine
  | [] => []
  | (k, v) :: rest =>
    (match v with
     | .map es => ⟨i, k.toList ++ [':']⟩ :: encEntries (i + 1) es
     | .list xs =>
       if xs.isEmpty then [⟨i, k.toList ++ (": []").toList⟩]
       else if xs.all isScalarB then [⟨i, encInlineList (k.toList) xs⟩]
       else if isTabularB xs then
         ⟨i, encTabHeader (k.toList) xs⟩ :: xs.map fun r => ⟨i + 1, encRow r⟩
       else [⟨i, k.toList ++ (": null").toList⟩]
     | _ => [⟨i, k.toList ++ ':' :: ' ' :: encScalar v⟩]) ++ encEntries i rest
termination_by es => sizeOf es

/-- Root-level encoding: a Map becomes its entry block, a List its root
tabular / inline form, a scalar a single line. -/
def encTop : Value → List NLine
  | .map es => encEntries 0 es
  | .list xs =>
    if xs.isEmpty then [⟨0, ("[0]:").toList⟩]
    else if xs.all isScalarB then [⟨0, encInlineList [] xs⟩]
    else if isTabularB xs then
      ⟨0, encTabHeader [] xs⟩ :: xs.map fun r => ⟨1, encRow r⟩
    else [⟨0, "null".toList⟩]
  | v => [⟨0, encScalar v⟩]

/-- Render normalized lines back to physical text (indent as spaces,
lines joined by newlines). -/
def render : List NLine → List Char
  | [] => []
  | [l] => List.replicate l.indent ' ' ++ l.content
  | l :: rest => List.replicate l.indent ' ' ++ l.content ++ '\n' :: render rest

/-- Modelled from the spec: §6 encode entry point (exported as `dumps` in
`toonpy/__init__.py`). -/
def dumps (v : Value) : String := (render (encTop v)).asString

/-! ### The supported subset of Values (spec §8 round-trip law) -/

/-- A map key the format can carry: nonempty, and free of the structural
characters (colon, quotes, brackets, braces, comma, whitespace, newline)
that the grammar reserves. -/
def SafeKey (k : String) : Prop :=
  k.toList ≠ [] ∧ ∀ c ∈ k.toList,
    c ≠ ':' ∧ c ≠ '[' ∧ c ≠ ']' ∧ c ≠ '{' ∧ c ≠ '}' ∧
    c ≠ '"' ∧ c ≠ '\'' ∧ c ≠ ',' ∧ c ≠ '\n' ∧ isWS c = false

/-- A string value the quoted form can carry: no newline (lines are the
structural unit), no double quote (the wrapping quote character), and no
opening bracket (a root-level scalar line containing `[N]:` or `[N]{...}`
would collide with the root list markers, which the decoder checks before
unquoting). -/
def SafeStr (s : String) : Prop :=
  ∀ c ∈ s.toList, c ≠ '\n' ∧ c ≠ '"' ∧ c ≠ '['

/-- Supported scalar values: `Float` must carry a well-formed token and
`String` a safe string. -/
inductive SupScalar : Value → Prop
  | null : SupScalar .null
  | bool (b : Bool) : SupScalar (.bool b)
  | int (n : Int) : SupScalar (.int n)
  | float (t : String) (h : isFloatTok t.toList = true) : SupScalar (.float t)
  | str (s : String) (h : SafeStr s) : SupScalar (.str s)

mutual

/-- The supported subset of §8: all scalar kinds, Maps (with safe,
pairwise-distinct keys), Lists of scalars, and tabular-array-eligible
Lists of uniform Maps of scalars. -/
inductive SupV : Value → Prop
  | scalar {v : Value} (h : SupScalar v) : SupV v
  | emptyList : SupV (.list [])
  | scalarList {xs : List Value} (hne : xs ≠ []) (h : ∀ x ∈ xs, SupScalar x) :
      SupV (.list xs)
  | tabular {xs : List Value} (cols : List String)
      (hne : xs ≠ []) (hcols : cols ≠ [])
      (hsafe : ∀ c ∈ cols, SafeKey c) (hnd : cols.Nodup)
      (hrows : ∀ x ∈ xs, ∃ cells, x = .map (cols.zip cells) ∧
        cells.length = cols.length ∧ ∀ c ∈ cells, SupScalar c) :
      SupV (.list xs)
  | map {es : List (String × Value)} (h : SupEntries es)
      (hnd : (es.map Prod.fst).Nodup) : SupV (.map es)

/-- Entry lists of the supported subset. -/
inductive SupEntries : List (String × Value) → Prop
  | nil : SupEntries []
  | cons {k : String} {v : Value} {es : List (String × Value)}
      (hk : SafeKey k) (hv : SupV v) (hrest : SupEntries es) :
      SupEntries ((k, v) :: es)

end

/-! ### Digit-string lemmas -/

theorem digitChar_spec (d : Nat) (h : d < 10) :
    (digitChar d).isDigit = true ∧ (digitChar d).toNat - 48 = d ∧
      digitChar d ≠ '-' ∧ digitChar d ≠ '.' ∧ digitChar d ≠ ',' ∧
      digitChar d ≠ '"' ∧ digitChar d ≠ '\'' ∧ digitChar d ≠ '[' ∧
      digitChar d ≠ ']' ∧ digitChar d ≠ ':' ∧ digitChar d ≠ '\n' ∧
      isWS (digitChar d) = false := by
  interval_cases d <;> exact ⟨rfl, rfl, by decide, by decide, by decide, by decide,
    by decide, by decide, by decide, by decide, by decide, rfl⟩

theorem natChars_eq (n : Nat) : natChars n =
    if n < 10 then [digitChar n] else natChars (n / 10) ++ [digitChar (n % 10)] := by
  rw [natChars]
  split <;> rfl

theorem natChars_spec (n : Nat) :
    natChars n ≠ [] ∧ ∀ c ∈ natChars n, c.isDigit := by
  induction n using Nat.strong_induction_on with
  | _ n ih =>
    rw [natChars_eq]
    by_cases h : n < 10
    · rw [if_pos h]
      exact ⟨by simp, by intro c hc; simp at hc; subst hc; exact (digitChar_spec n h).1⟩
    · rw [if_neg h]
      have h10 : n / 10 < n :=
        Nat.div_lt_self (by omega) (by norm_num)
      refine ⟨by simp, ?_⟩
      intro c hc
      rcases List.mem_append.mp hc with h1 | h1
      · exact (ih _ h10).2 c h1
      · simp at h1
        subst h1
        exact (digitChar_spec _ (Nat.mod_lt _ (by norm_num))).1

theorem parseNatChars_natChars (n : Nat) : parseNatChars (natChars n) = n := by
  induction n using Nat.strong_induction_on with
  | _ n ih =>
    rw [natChars_eq]
    by_cases h : n < 10
    · rw [if_pos h]
      show 0 * 10 + ((digitChar n).toNat - 48) = n
      rw [Nat.zero_mul, Nat.zero_add, (digitChar_spec n h).2.1]
    · rw [if_neg h]
      have h10 : n / 10 < n := Nat.div_lt_self (by omega) (by norm_num)
      show List.foldl (fun x c => x * 10 + (c.toNat - 48)) 0
        (natChars (n / 10) ++ [digitChar (n % 10)]) = n
      rw [List.foldl_append]
      show parseNatChars (natChars (n / 10)) * 10 + ((digitChar (n % 10)).toNat - 48) = n
      rw [ih _ h10, (digitChar_spec _ (Nat.mod_lt _ (by norm_num))).2.1]
      omega

theorem natChars_head_digit (n : Nat) :
    ∃ c cs, natChars n = c :: cs ∧ c.isDigit := by
  rcases hn : natChars n with _ | ⟨c, cs⟩
  · exact absurd hn (natChars_spec n).1
  · exact ⟨c, cs, rfl, (natChars_spec n).2 c (by rw [hn]; simp)⟩

theorem ne_nil_of_isEmpty_false {A : Type} {l : List A} (h : l.isEmpty = false) :
    l ≠ [] := by
  cases l <;> simp_all

theorem isEmpty_false_of_ne_nil {A : Type} {l : List A} (h : l ≠ []) :
    l.isEmpty = false := by
  cases l <;> simp_all

theorem intChars_spec (n : Int) :
    isIntTok (intChars n) = true ∧ parseIntChars (intChars n) = n ∧
      intChars n ≠ [] ∧
      (∀ c ∈ intChars n, c.isDigit ∨ c = '-') := by
  obtain ⟨c, cs, hnc, hcd⟩ := natChars_head_digit n.natAbs
  have hemp : (natChars n.natAbs).isEmpty = false :=
    isEmpty_false_of_ne_nil (natChars_spec n.natAbs).1
  have hall : (natChars n.natAbs).all (·.isDigit) = true :=
    List.all_eq_true.mpr (natChars_spec n.natAbs).2
  by_cases h : n < 0
  · rw [intChars, if_pos h]
    refine ⟨?_, ?_, by simp, ?_⟩
    · rw [isIntTok]
      simp only [List.head?_cons, Option.some.injEq, if_pos rfl, List.tail_cons]
      simp [hemp, hall]
    · rw [parseIntChars, if_pos (by simp)]
      simp only [List.tail_cons, parseNatChars_natChars]
      omega
    · intro x hx
      rcases List.mem_cons.mp hx with h1 | h1
      · exact Or.inr h1
      · exact Or.inl ((natChars_spec n.natAbs).2 x h1)
  · rw [intChars, if_neg h]
    have hhead : (natChars n.natAbs).head? ≠ some '-' := by
      rw [hnc]
      simp only [List.head?_cons, ne_eq, Option.some.injEq]
      intro heq
      rw [heq] at hcd
      exact absurd hcd (by decide)
    refine ⟨?_, ?_, (natChars_spec n.natAbs).1, ?_⟩
    · rw [isIntTok, if_neg hhead]
      simp [hemp, hall]
    · rw [parseIntChars, if_neg hhead, parseNatChars_natChars]
      omega
    · intro x hx
      exact Or.inl ((natChars_spec n.natAbs).2 x hx)

/-! ### Float-token lemmas -/

theorem floatBody_elim (cs : List Char) (h : floatBody cs = true) :
    ∃ a b, cs = a ++ '.' :: b ∧ a ≠ [] ∧ b ≠ [] ∧
      (∀ c ∈ a, c.isDigit) ∧ (∀ c ∈ b, c.isDigit) := by
  rw [floatBody] at h
  split at h
  next b heq =>
    simp only [Bool.and_eq_true, Bool.not_eq_true'] at h
    obtain ⟨⟨ha, hb⟩, hball⟩ := h
    refine ⟨cs.takeWhile (·.isDigit), b, ?_, ne_nil_of_isEmpty_false ha,
      ne_nil_of_isEmpty_false hb, fun c hc => List.mem_takeWhile_imp hc,
      fun c hc => List.all_eq_true.mp hball c hc⟩
    rw [← heq]
    exact (List.takeWhile_append_dropWhile _ _).symm
  next => exact absurd h (by simp)

theorem floatBody_not_int (cs : List Char) (h : floatBody cs = true) :
    isIntTok cs = false ∧ ∃ c cs2, cs = c :: cs2 ∧ c.isDigit := by
  obtain ⟨a, b, hcs, ha, _, hda, _⟩ := floatBody_elim cs h
  rcases a with _ | ⟨a0, arest⟩
  · exact absurd rfl ha
  · have ha0 : a0.isDigit := hda a0 (by simp)
    have hcs' : cs = a0 :: (arest ++ '.' :: b) := by rw [hcs]; rfl
    refine ⟨?_, a0, _, hcs', ha0⟩
    rw [isIntTok, hcs']
    have hh : ((a0 :: (arest ++ '.' :: b)).head? = some '-') = False := by
      simp only [List.head?_cons, Option.some.injEq, eq_iff_iff, iff_false]
      intro heq
      rw [heq] at ha0
      exact absurd ha0 (by decide)
    rw [if_neg (by rw [hh]; exact id)]
    have : ¬ (a0 :: (arest ++ '.' :: b)).all (·.isDigit) = true := by
      intro hall
      have := List.all_eq_true.mp hall '.' (by simp)
      exact absurd this (by decide)
    simp [List.all_eq_true] at this ⊢

theorem isFloatTok_spec (cs : List Char) (h : isFloatTok cs = true) :
    cs ≠ [] ∧ (∀ c ∈ cs, c.isDigit ∨ c = '.' ∨ c = '-') ∧ isIntTok cs = false ∧
      (∃ c cs2, cs = c :: cs2 ∧ (c.isDigit ∨ c = '-')) := by
  rw [isFloatTok] at h
  by_cases hm : cs.head? = some '-'
  · rw [if_pos hm] at h
    rcases hcs : cs with _ | ⟨c0, cs0⟩
    · rw [hcs] at hm; simp at hm
    · rw [hcs] at hm
      simp only [List.head?_cons, Option.some.injEq] at hm
      subst hm
      rw [hcs] at h
      simp only [List.tail_cons] at h
      obtain ⟨a, b, hsp, ha, hb, hda, hdb⟩ := floatBody_elim cs0 h
      obtain ⟨hint0, d0, ds0, hd0, hdd0⟩ := floatBody_not_int cs0 h
      refine ⟨by simp, ?_, ?_, ⟨'-', cs0, rfl, Or.inr rfl⟩⟩
      · intro c hc
        rcases List.mem_cons.mp hc with h1 | h1
        · exact Or.inr (Or.inr h1)
        · rw [hsp] at h1
          rcases List.mem_append.mp h1 with h2 | h2
          · exact Or.inl (hda c h2)
          · rcases List.mem_cons.mp h2 with h3 | h3
            · exact Or.inr (Or.inl h3)
            · exact Or.inl (hdb c h3)
      · rw [isIntTok]
        simp only [List.head?_cons, Option.some.injEq, if_pos rfl, List.tail_cons]
        have : ¬ cs0.all (·.isDigit) = true := by
          intro hall
          have := List.all_eq_true.mp hall '.' (by rw [hsp]; simp)
          exact absurd this (by decide)
        simp [this]
  · rw [if_neg hm] at h
    obtain ⟨a, b, hsp, ha, hb, hda, hdb⟩ := floatBody_elim cs h
    obtain ⟨hint, c0, cs0, hc0, hd0⟩ := floatBody_not_int cs h
    refine ⟨by rw [hc0]; simp, ?_, hint, ⟨c0, cs0, hc0, Or.inl hd0⟩⟩
    intro c hc
    rw [hsp] at hc
    rcases List.mem_append.mp hc with h1 | h1
    · exact Or.inl (hda c h1)
    · rcases List.mem_cons.mp h1 with h2 | h2
      · exact Or.inr (Or.inl h2)
      · exact Or.inl (hdb c h2)

/-! ### Trim lemmas -/

theorem mem_dropWhile_of_not {α : Type} {p : α → Bool} {l : List α} {c : α}
    (hm : c ∈ l) (hc : p c = false) : c ∈ l.dropWhile p := by
  induction l with
  | nil => simp at hm
  | cons x xs ih =>
    by_cases hx : p x
    · rw [List.dropWhile_cons, if_pos hx]
      rcases List.mem_cons.mp hm with h1 | h1
      · subst h1; rw [hx] at hc; exact Bool.noConfusion hc
      · exact ih h1
    · rw [List.dropWhile_cons, if_neg hx]
      exact hm

theorem mem_trim {cs : List Char} {c : Char} (hm : c ∈ cs) (hc : isWS c = false) :
    c ∈ trim cs := by
  rw [trim, trimL, trimR]
  refine mem_dropWhile_of_not ?_ hc
  rw [List.mem_reverse]
  exact mem_dropWhile_of_not (List.mem_reverse.mpr hm) hc

theorem trimL_eq_self {cs : List Char} (h : ∀ c, cs.head? = some c → isWS c = false) :
    trimL cs = cs := by
  cases cs with
  | nil => rfl
  | cons x xs =>
    rw [trimL, List.dropWhile_cons, if_neg]
    rw [h x rfl]
    simp

theorem trimR_eq_self {cs : List Char} (h : ∀ c, cs.getLast? = some c → isWS c = false) :
    trimR cs = cs := by
  rw [trimR]
  cases hcs : cs.reverse with
  | nil =>
    rw [List.dropWhile_nil]
    rw [← hcs, List.reverse_reverse]
  | cons x xs =>
    rw [List.dropWhile_cons, if_neg, ← hcs, List.reverse_reverse]
    have : cs.getLast? = some x := by
      rw [← List.head?_reverse, hcs, List.head?_cons]
    rw [h x this]
    simp

theorem trim_eq_self {cs : List Char}
    (hh : ∀ c, cs.head? = some c → isWS c = false)
    (hl : ∀ c, cs.getLast? = some c → isWS c = false) :
    trim cs = cs := by
  rw [trim, trimR_eq_self hl, trimL_eq_self hh]

theorem head_last_prop {α : Type} {cs : List α} {P : α → Prop} (h : ∀ c ∈ cs, P c) :
    (∀ c, cs.head? = some c → P c) ∧ (∀ c, cs.getLast? = some c → P c) := by
  constructor
  · intro c hc
    cases cs with
    | nil => simp at hc
    | cons x xs =>
      simp only [List.head?_cons, Option.some.injEq] at hc
      exact hc ▸ h x (by simp)
  · intro c hc
    induction cs with
    | nil => simp at hc
    | cons x xs ih =>
      cases hxs : xs with
      | nil =>
        rw [hxs] at hc
        simp only [List.getLast?_singleton, Option.some.injEq] at hc
        exact hc ▸ h x (by simp)
      | cons y ys =>
        rw [hxs] at hc
        rw [List.getLast?_cons_cons] at hc
        exact ih (fun d hd => h d (List.mem_cons_of_mem _ (hxs ▸ hd))) (hxs ▸ hc)

/-! ### topSplit walk lemmas -/

theorem topSplitAux_skip {a : List Char}
    (h : ∀ c ∈ a, c ≠ ':' ∧ c ≠ '"' ∧ c ≠ '\'') (rest acc : List Char) :
    topSplitAux (a ++ rest) none acc = topSplitAux rest none (acc ++ a) := by
  induction a generalizing acc with
  | nil => simp
  | cons x xs ih =>
    obtain ⟨h1, h2, h3⟩ := h x (by simp)
    rw [List.cons_append, topSplitAux, if_neg (by simpa using h1),
      if_neg (by simp [h2, h3])]
    rw [ih (fun c hc => h c (by simp [hc])) (acc ++ [x])]
    simp

theorem topSplitAux_quote_skip {a : List Char} {q : Char}
    (h : ∀ c ∈ a, c ≠ q) (rest acc : List Char) :
    topSplitAux (a ++ rest) (some q) acc = topSplitAux rest (some q) (acc ++ a) := by
  induction a generalizing acc with
  | nil => simp
  | cons x xs ih =>
    rw [List.cons_append, topSplitAux, if_neg (by simpa using h x (by simp))]
    rw [ih (fun c hc => h c (by simp [hc])) (acc ++ [x])]
    simp

theorem topSplitAux_none_all {cs : List Char}
    (h : ∀ c ∈ cs, c ≠ ':' ∧ c ≠ '"' ∧ c ≠ '\'') (acc : List Char) :
    topSplitAux cs none acc = none := by
  have := topSplitAux_skip h [] acc
  rw [List.append_nil] at this
  rw [this]
  rfl

theorem topSplit_quoted_none {s : List Char} (h : ∀ c ∈ s, c ≠ '"') :
    topSplit ('"' :: s ++ ['"']) = none := by
  rw [topSplit]
  have h1 : topSplitAux ('"' :: (s ++ ['"'])) none [] =
      topSplitAux (s ++ ['"']) (some '"') ['"'] := by
    rw [topSplitAux, if_neg (by decide), if_pos (by decide)]
    rfl
  rw [show ('"' :: s ++ ['"'] : List Char) = '"' :: (s ++ ['"']) from rfl, h1,
    topSplitAux_quote_skip h ['"'] ['"']]
  rfl

theorem topSplit_key {a : List Char}
    (h : ∀ c ∈ a, c ≠ ':' ∧ c ≠ '"' ∧ c ≠ '\'') (rest : List Char) :
    topSplit (a ++ ':' :: rest) = some (trim a, trim rest) := by
  rw [topSplit, topSplitAux_skip h (':' :: rest) []]
  rw [topSplitAux, if_pos rfl]
  simp

/-! ### Scalar-encoding facts -/

/-- A CSV cell the splitter reassembles: either a plain token free of
commas, quotes and whitespace, or a double-quoted token whose inner text
has no double quote. -/
def CellOK (cell : List Char) : Prop :=
  (cell ≠ [] ∧ ∀ c ∈ cell, c ≠ ',' ∧ c ≠ '"' ∧ c ≠ '\'' ∧ isWS c = false) ∨
  (∃ s, cell = '"' :: s ++ ['"'] ∧ ∀ c ∈ s, c ≠ '"')

theorem ne_of_pred {p : List Char → Bool} {a b : List Char}
    (ha : p a = true) (hb : p b = false) : a ≠ b := by
  intro h
  rw [h, hb] at ha
  exact Bool.noConfusion ha

theorem digit_char_facts (c : Char) (h : c.isDigit = true) :
    c ≠ ',' ∧ c ≠ '"' ∧ c ≠ '\'' ∧ isWS c = false ∧ c ≠ '[' ∧ c ≠ ']' ∧
      c ≠ '{' ∧ c ≠ '}' ∧ c ≠ ':' ∧ c ≠ '\n' ∧ c ≠ '-' ∧ c ≠ '.' := by
  refine ⟨?_, ?_, ?_, ?_, ?_, ?_, ?_, ?_, ?_, ?_, ?_, ?_⟩ <;>
    first
      | (intro heq; rw [heq] at h; exact absurd h (by decide))
      | (by_cases hsp : c = ' '
         · rw [hsp] at h; exact absurd h (by decide)
         · by_cases htb : c = '\t'
           · rw [htb] at h; exact absurd h (by decide)
           · by_cases hcr : c = '\r'
             · rw [hcr] at h; exact absurd h (by decide)
             · simp [isWS, hsp, htb, hcr])

/-- The character set of a supported plain (unquoted) scalar token. -/
def PlainChar (c : Char) : Prop :=
  c.isDigit = true ∨ c = '-' ∨ c = '.' ∨ c ∈ ("nultrefas").toList

theorem plain_char_facts (c : Char) (h : PlainChar c) :
    c ≠ ',' ∧ c ≠ '"' ∧ c ≠ '\'' ∧ isWS c = false ∧ c ≠ '[' ∧ c ≠ ':' ∧ c ≠ '\n' := by
  rcases h with h | h | h | h
  · obtain ⟨h1, h2, h3, h4, h5, _, _, _, h9, h10, _, _⟩ := digit_char_facts c h
    exact ⟨h1, h2, h3, h4, h5, h9, h10⟩
  · subst h; exact ⟨by decide, by decide, by decide, rfl, by decide, by decide, by decide⟩
  · subst h; exact ⟨by decide, by decide, by decide, rfl, by decide, by decide, by decide⟩
  · fin_cases h <;>
      exact ⟨by decide, by decide, by decide, rfl, by decide, by decide, by decide⟩

theorem coerce_unquoted (tok : List Char) (hne : tok ≠ []) (hq : isQuotedL tok = false)
    (ht : tok ≠ ['t', 'r', 'u', 'e']) (hf : tok ≠ ['f', 'a', 'l', 's', 'e'])
    (hn : tok ≠ ['n', 'u', 'l', 'l']) :
    coerceScalarL tok =
      if isIntTok tok then .int (parseIntChars tok)
      else if isFloatTok tok then .float tok.asString
      else .str tok.asString := by
  rw [coerceScalarL, if_neg (by simp [List.isEmpty_iff, hne]), if_neg (by simp [hq]),
    if_neg ht, if_neg hf, if_neg hn]

theorem encScalar_plain_chars (v : Value) (h : SupScalar v)
    (hnstr : ∀ s, v ≠ .str s) : ∀ c ∈ encScalar v, PlainChar c := by
  cases h with
  | null =>
    intro c hc
    right; right; right
    have hc2 : c ∈ ['n', 'u', 'l', 'l'] := hc
    fin_cases hc2 <;> decide
  | bool b =>
    cases b with
    | false =>
      intro c hc
      right; right; right
      have hc2 : c ∈ ['f', 'a', 'l', 's', 'e'] := hc
      fin_cases hc2 <;> decide
    | true =>
      intro c hc
      right; right; right
      have hc2 : c ∈ ['t', 'r', 'u', 'e'] := hc
      fin_cases hc2 <;> decide
  | int n =>
    intro c hc
    rcases (intChars_spec n).2.2.2 c hc with h1 | h1
    · exact Or.inl h1
    · exact Or.inr (Or.inl h1)
  | float t ht =>
    intro c hc
    rcases (isFloatTok_spec _ ht).2.1 c hc with h1 | h1 | h1
    · exact Or.inl h1
    · exact Or.inr (Or.inr (Or.inl h1))
    · exact Or.inr (Or.inl h1)
  | str s hs => exact absurd rfl (hnstr s)

/-- Everything the round-trip argument needs about one encoded scalar. -/
theorem encScalar_spec (v : Value) (h : SupScalar v) :
    coerceScalarL (encScalar v) = v ∧
    encScalar v ≠ [] ∧
    ('[' ∉ encScalar v) ∧ ('\n' ∉ encScalar v) ∧
    (∀ c, (encScalar v).head? = some c → isWS c = false) ∧
    (∀ c, (encScalar v).getLast? = some c → isWS c = false) ∧
    topSplit (encScalar v) = none ∧
    CellOK (encScalar v) := by
  by_cases hstr : ∃ s, v = .str s
  · obtain ⟨s, rfl⟩ := hstr
    have hs : SafeStr s := by cases h with | str _ hs => exact hs
    have henc : encScalar (.str s) = '"' :: s.toList ++ ['"'] := rfl
    rw [henc]
    refine ⟨?_, by simp, ?_, ?_, ?_, ?_,
      topSplit_quoted_none (fun c hc => (hs c hc).2.1), ?_⟩
    · rw [← henc]
      show coerceScalarL (encScalar (.str s)) = Value.str s
      rw [henc, coerce_quote_pair _ _ (Or.inl rfl), asString_toList]
    · intro hmem
      rcases List.mem_cons.mp hmem with h1 | h1
      · exact absurd h1 (by decide)
      · rcases List.mem_append.mp h1 with h2 | h2
        · exact (hs _ h2).2.2 rfl
        · exact absurd (List.mem_singleton.mp h2) (by decide)
    · intro hmem
      rcases List.mem_cons.mp hmem with h1 | h1
      · exact absurd h1 (by decide)
      · rcases List.mem_append.mp h1 with h2 | h2
        · exact (hs _ h2).1 rfl
        · exact absurd (List.mem_singleton.mp h2) (by decide)
    · intro c hc
      rw [show ('"' :: s.toList ++ ['"'] : List Char) = '"' :: (s.toList ++ ['"']) from by
        simp] at hc
      simp only [List.head?_cons, Option.some.injEq] at hc
      rw [← hc]
      rfl
    · intro c hc
      rw [show ('"' :: s.toList ++ ['"'] : List Char) = ('"' :: s.toList) ++ ['"'] from by simp,
        List.getLast?_concat] at hc
      simp only [Option.some.injEq] at hc
      rw [← hc]
      rfl
    · exact Or.inr ⟨s.toList, rfl, fun c hc => (hs c hc).2.1⟩
  · have hplain : ∀ c ∈ encScalar v, PlainChar c :=
      encScalar_plain_chars v h (fun s hv => hstr ⟨s, hv⟩)
    have hne : encScalar v ≠ [] := by
      cases h with
      | null => decide
      | bool b => cases b <;> decide
      | int n => exact (intChars_spec n).2.2.1
      | float t ht => exact (isFloatTok_spec _ ht).1
      | str s hs => exact absurd ⟨s, rfl⟩ hstr
    have hq : isQuotedL (encScalar v) = false := by
      rcases hcs : encScalar v with _ | ⟨c0, cs0⟩
      · rfl
      · have hd0 : PlainChar c0 := hplain c0 (by rw [hcs]; simp)
        obtain ⟨_, h2, h3, _, _, _, _⟩ := plain_char_facts c0 hd0
        rw [isQuotedL]
        simp [h2, h3]
    refine ⟨?_, hne, ?_, ?_, ?_, ?_, ?_, ?_⟩
    · -- coercion inverse for plain scalars
      cases h with
      | null => rfl
      | bool b => cases b <;> rfl
      | int n =>
        have hint := intChars_spec n
        show coerceScalarL (intChars n) = .int n
        rw [coerce_unquoted (intChars n) hint.2.2.1 hq
            (ne_of_pred hint.1 (by decide)) (ne_of_pred hint.1 (by decide))
            (ne_of_pred hint.1 (by decide)),
          if_pos hint.1, hint.2.1]
      | float t ht =>
        have hfl := isFloatTok_spec t.toList ht
        show coerceScalarL t.toList = .float t
        rw [coerce_unquoted t.toList hfl.1 hq
            (ne_of_pred ht (by decide)) (ne_of_pred ht (by decide))
            (ne_of_pred ht (by decide)),
          if_neg (by simp [show isIntTok t.data = false from hfl.2.2.1]), if_pos ht,
          asString_toList]
      | str s hs => exact absurd ⟨s, rfl⟩ hstr
    · intro hmem
      exact (plain_char_facts _ (hplain _ hmem)).2.2.2.2.1 rfl
    · intro hmem
      exact (plain_char_facts _ (hplain _ hmem)).2.2.2.2.2.2 rfl
    · exact (head_last_prop (fun c hc => (plain_char_facts c (hplain c hc)).2.2.2.1)).1
    · exact (head_last_prop (fun c hc => (plain_char_facts c (hplain c hc)).2.2.2.1)).2
    · rw [topSplit, topSplitAux_none_all
        (fun c hc => ⟨(plain_char_facts c (hplain c hc)).2.2.2.2.2.1,
          (plain_char_facts c (hplain c hc)).2.1,
          (plain_char_facts c (hplain c hc)).2.2.1⟩) []]
      rfl
    · exact Or.inl ⟨hne, fun c hc =>
        ⟨(plain_char_facts c (hplain c hc)).1, (plain_char_facts c (hplain c hc)).2.1,
          (plain_char_facts c (hplain c hc)).2.2.1,
          (plain_char_facts c (hplain c hc)).2.2.2.1⟩⟩

/-! ### CSV join/split inversion -/

theorem csvAux_plain {a : List Char} (h : ∀ c ∈ a, c ≠ ',' ∧ c ≠ '"' ∧ c ≠ '\'')
    (rest cur : List Char) :
    csvSplitAux (a ++ rest) none cur = csvSplitAux rest none (cur ++ a) := by
  induction a generalizing cur with
  | nil => simp
  | cons x xs ih =>
    obtain ⟨h1, h2, h3⟩ := h x (by simp)
    rw [List.cons_append, csvSplitAux, if_neg (by simpa using h1),
      if_neg (by simp [h2, h3])]
    rw [ih (fun c hc => h c (by simp [hc])) (cur ++ [x])]
    simp

theorem csvAux_quote {a : List Char} {q : Char} (h : ∀ c ∈ a, c ≠ q)
    (rest cur : List Char) :
    csvSplitAux (a ++ rest) (some q) cur = csvSplitAux rest (some q) (cur ++ a) := by
  induction a generalizing cur with
  | nil => simp
  | cons x xs ih =>
    rw [List.cons_append, csvSplitAux, if_neg (by simpa using h x (by simp))]
    rw [ih (fun c hc => h c (by simp [hc])) (cur ++ [x])]
    simp

theorem exists_getLast?_of_ne_nil {α : Type} {l : List α} (h : l ≠ []) :
    ∃ a, l.getLast? = some a := by
  induction l with
  | nil => exact absurd rfl h
  | cons x xs ih =>
    cases hxs : xs with
    | nil => exact ⟨x, rfl⟩
    | cons y ys =>
      obtain ⟨a, ha⟩ := ih (by simp [hxs])
      rw [hxs] at ha
      exact ⟨a, by rw [List.getLast?_cons_cons]; exact ha⟩

theorem csvAux_cell {cell : List Char} (hok : CellOK cell) {pre : List Char}
    (hpre : ∀ c ∈ pre, c = ' ') (rest : List Char) :
    csvSplitAux (cell ++ rest) none pre = csvSplitAux rest none (pre ++ cell) := by
  have hpre' : trimL pre = [] := by
    rw [trimL, List.dropWhile_eq_nil_iff]
    intro x hx
    rw [hpre x hx]
    rfl
  rcases hok with ⟨hne, hch⟩ | ⟨s, hcell, hs⟩
  · exact csvAux_plain (fun c hc => ⟨(hch c hc).1, (hch c hc).2.1, (hch c hc).2.2.1⟩) rest pre
  · subst hcell
    rw [show (('"' :: s ++ ['"']) ++ rest : List Char) = '"' :: (s ++ (['"'] ++ rest)) from by
      simp]
    rw [csvSplitAux, if_neg (by decide), if_pos (by simp [hpre'])]
    rw [csvAux_quote hs (['"'] ++ rest) (pre ++ ['"'])]
    rw [show (['"'] ++ rest : List Char) = '"' :: rest from rfl]
    rw [csvSplitAux, if_pos rfl]
    congr 1
    simp

theorem cellOK_trim {cell : List Char} (hok : CellOK cell) {pre : List Char}
    (hpre : ∀ c ∈ pre, c = ' ') : trim (pre ++ cell) = cell := by
  have hne : cell ≠ [] := by
    rcases hok with ⟨hne, _⟩ | ⟨s, hcell, _⟩
    · exact hne
    · subst hcell; simp
  have hhead : ∀ c, cell.head? = some c → isWS c = false := by
    rcases hok with ⟨_, hch⟩ | ⟨s, hcell, _⟩
    · exact (head_last_prop (fun c hc => (hch c hc).2.2.2)).1
    · subst hcell
      intro c hc
      rw [show ('"' :: s ++ ['"'] : List Char) = '"' :: (s ++ ['"']) from by simp] at hc
      simp only [List.head?_cons, Option.some.injEq] at hc
      rw [← hc]
      rfl
  have hlast : ∀ c, cell.getLast? = some c → isWS c = false := by
    rcases hok with ⟨_, hch⟩ | ⟨s, hcell, _⟩
    · exact (head_last_prop (fun c hc => (hch c hc).2.2.2)).2
    · subst hcell
      intro c hc
      rw [show ('"' :: s ++ ['"'] : List Char) = ('"' :: s) ++ ['"'] from by simp,
        List.getLast?_concat] at hc
      simp only [Option.some.injEq] at hc
      rw [← hc]
      rfl
  have h1 : trimR (pre ++ cell) = pre ++ cell := by
    apply trimR_eq_self
    intro c hc
    obtain ⟨d, hd⟩ := exists_getLast?_of_ne_nil hne
    rw [List.getLast?_append, hd] at hc
    rw [show (some d).or pre.getLast? = some d from rfl] at hc
    exact hlast c (hd.trans hc)
  rw [trim, h1, trimL, dropWhile_append_all _ _ (by intro c hc; rw [hpre c hc]; rfl)]
  exact trimL_eq_self hhead

theorem csvAux_join (cells : List (List Char)) (hne : cells ≠ [])
    (hok : ∀ cell ∈ cells, CellOK cell) {pre : List Char}
    (hpre : ∀ c ∈ pre, c = ' ') :
    (csvSplitAux (joinCells cells) none pre).map trim = cells := by
  induction cells generalizing pre with
  | nil => exact absurd rfl hne
  | cons c cs ih =>
    cases cs with
    | nil =>
      have hstep := csvAux_cell (hok c (by simp)) hpre []
      rw [List.append_nil] at hstep
      show List.map trim (csvSplitAux (joinCells [c]) none pre) = [c]
      rw [show joinCells [c] = c from rfl, hstep]
      show List.map trim [pre ++ c] = [c]
      simp only [List.map_cons, List.map_nil]
      rw [cellOK_trim (hok c (by simp)) hpre]
    | cons c2 cs2 =>
      rw [show joinCells (c :: c2 :: cs2) = c ++ ',' :: ' ' :: joinCells (c2 :: cs2) from rfl]
      rw [csvAux_cell (hok c (by simp)) hpre (',' :: ' ' :: joinCells (c2 :: cs2))]
      rw [csvSplitAux, if_pos rfl]
      rw [show (' ' :: joinCells (c2 :: cs2) : List Char) = [' '] ++ joinCells (c2 :: cs2) from rfl]
      have hstep : csvSplitAux ([' '] ++ joinCells (c2 :: cs2)) none [] =
          csvSplitAux (joinCells (c2 :: cs2)) none [' '] := by
        rw [List.cons_append, csvSplitAux, if_neg (by decide), if_neg (by decide)]
        rfl
      rw [hstep]
      simp only [List.map_cons]
      rw [cellOK_trim (hok c (by simp)) hpre]
      rw [ih (by simp) (fun x hx => hok x (by simp [hx])) (by intro x hx; simpa using hx)]

theorem csvSplit_join (cells : List (List Char)) (hne : cells ≠ [])
    (hok : ∀ cell ∈ cells, CellOK cell) :
    csvSplit (joinCells cells) = cells := by
  rw [csvSplit]
  exact csvAux_join cells hne hok (by intro x hx; simp at hx)

theorem unquoteField_plain {cs : List Char}
    (h : ∀ c, cs.head? = some c → c ≠ '"' ∧ c ≠ '\'') : unquoteField cs = cs := by
  rw [unquoteField]
  cases cs with
  | nil => rfl
  | cons x xs =>
    obtain ⟨h1, h2⟩ := h x rfl
    rw [if_neg]
    rw [isQuotedL]
    simp [h1, h2]

/-- Inline CSV round trip: splitting a joined list of encoded supported
scalars and coercing each field returns the original values. -/
theorem inlineCSV_enc (xs : List Value) (hne : xs ≠ []) (h : ∀ x ∈ xs, SupScalar x) :
    inlineCSVList xs.length (joinCells (xs.map encScalar)) = xs := by
  rw [inlineCSVList, csvSplit_join (xs.map encScalar) (by simp [hne])
    (by intro cell hc
        rw [List.mem_map] at hc
        obtain ⟨x, hx, hcx⟩ := hc
        exact hcx ▸ (encScalar_spec x (h x hx)).2.2.2.2.2.2.2)]
  rw [List.map_map]
  have : xs.map (coerceScalarL ∘ encScalar) = xs.map id := by
    apply List.map_congr_left
    intro x hx
    exact (encScalar_spec x (h x hx)).1
  rw [this, List.map_id]
  simp

/-! ### Matcher lemmas on encoded content -/

theorem head?_append_left {α : Type} {a : List α} (h : a ≠ []) (b : List α) :
    (a ++ b).head? = a.head? := by
  cases a with
  | nil => exact absurd rfl h
  | cons x xs => rfl

theorem getLast?_append_right {α : Type} (a : List α) {b : List α} (h : b ≠ []) :
    (a ++ b).getLast? = b.getLast? := by
  obtain ⟨d, hd⟩ := exists_getLast?_of_ne_nil h
  rw [List.getLast?_append, hd]
  rfl

theorem joinCells_chars {cells : List (List Char)} {c : Char} (h : c ∈ joinCells cells) :
    (∃ cell ∈ cells, c ∈ cell) ∨ c = ',' ∨ c = ' ' := by
  induction cells with
  | nil => simp [joinCells] at h
  | cons x xs ih =>
    cases xs with
    | nil =>
      rw [show joinCells [x] = x from rfl] at h
      exact Or.inl ⟨x, by simp, h⟩
    | cons y ys =>
      rw [show joinCells (x :: y :: ys) = x ++ ',' :: ' ' :: joinCells (y :: ys) from rfl] at h
      rcases List.mem_append.mp h with h1 | h1
      · exact Or.inl ⟨x, by simp, h1⟩
      · rcases List.mem_cons.mp h1 with h2 | h2
        · exact Or.inr (Or.inl h2)
        · rcases List.mem_cons.mp h2 with h3 | h3
          · exact Or.inr (Or.inr h3)
          · rcases ih h3 with ⟨cell, hc1, hc2⟩ | h4 | h4
            · exact Or.inl ⟨cell, by simp [hc1], hc2⟩
            · exact Or.inr (Or.inl h4)
            · exact Or.inr (Or.inr h4)

theorem joinCells_ne_nil {cells : List (List Char)} (hne : cells ≠ [])
    (h : ∀ cell ∈ cells, cell ≠ []) : joinCells cells ≠ [] := by
  cases cells with
  | nil => exact absurd rfl hne
  | cons x xs =>
    cases xs with
    | nil => exact h x (by simp)
    | cons y ys =>
      rw [show joinCells (x :: y :: ys) = x ++ ',' :: ' ' :: joinCells (y :: ys) from rfl]
      intro hemp
      rcases List.append_eq_nil.mp hemp with ⟨_, h2⟩
      exact List.noConfusion h2

theorem joinCells_head {c : List Char} (h : c ≠ [])
    (rest : List (List Char)) : (joinCells (c :: rest)).head? = c.head? := by
  cases rest with
  | nil => rfl
  | cons y ys =>
    rw [show joinCells (c :: y :: ys) = c ++ ',' :: ' ' :: joinCells (y :: ys) from rfl]
    exact head?_append_left h _

theorem joinCells_last {cells : List (List Char)} (hne : cells ≠ [])
    (h : ∀ cell ∈ cells, cell ≠ []) {P : Char → Prop}
    (hP : ∀ cell ∈ cells, ∀ c, cell.getLast? = some c → P c) :
    ∀ c, (joinCells cells).getLast? = some c → P c := by
  induction cells with
  | nil => exact absurd rfl hne
  | cons x xs ih =>
    cases xs with
    | nil =>
      intro c hc
      exact hP x (by simp) c hc
    | cons y ys =>
      intro c hc
      rw [show joinCells (x :: y :: ys) = x ++ ',' :: ' ' :: joinCells (y :: ys) from rfl] at hc
      rw [getLast?_append_right x (by simp)] at hc
      rw [show (',' :: ' ' :: joinCells (y :: ys) : List Char) =
        [',', ' '] ++ joinCells (y :: ys) from rfl] at hc
      rw [getLast?_append_right _ (joinCells_ne_nil (by simp)
        (fun cell hcell => h cell (by simp [hcell])))] at hc
      exact ih (by simp) (fun cell hcell => h cell (by simp [hcell]))
        (fun cell hcell => hP cell (by simp [hcell])) c hc

theorem decide_ne_true_of_ne {a b : Char} (h : a ≠ b) : (decide (a ≠ b)) = true := by
  simp [h]

theorem match_none_of_colon {a : List Char} (b : List Char)
    (hbr : '[' ∉ a) (hc : ':' ∈ a) :
    matchTabular (a ++ b) = none ∧ matchInlineList (a ++ b) = none := by
  have hkey : ':' ∈ trim ((a ++ b).takeWhile (· ≠ '[')) := by
    refine mem_trim ?_ (by decide)
    rw [takeWhile_append_all _ b (fun c hcc =>
      decide_ne_true_of_ne (fun h => hbr (by rw [← h]; exact hcc)))]
    exact List.mem_append_left _ hc
  have hall : ¬ ((trim ((a ++ b).takeWhile (· ≠ '['))).all (· ≠ ':') = true) := by
    intro hall
    have := List.all_eq_true.mp hall ':' hkey
    simp at this
  exact ⟨by simp only [matchTabular]; rw [if_neg hall],
    by simp only [matchInlineList]; rw [if_neg hall]⟩

theorem match_none_no_bracket {cs : List Char} (h : '[' ∉ cs) :
    matchTabular cs = none ∧ matchInlineList cs = none := by
  have hdrop : cs.dropWhile (· ≠ '[') = [] :=
    List.dropWhile_eq_nil_iff.mpr (fun c hc => decide_ne_true_of_ne (fun he => h (he ▸ hc)))
  constructor
  · simp only [matchTabular, hdrop]
    split <;> rfl
  · simp only [matchInlineList, hdrop]
    split <;> rfl

/-- Recognition of an encoded tabular header. -/
theorem matchTabular_enc {k : List Char} {cols : List String} (n : Nat)
    (hk : ∀ c ∈ k, c ≠ ':' ∧ c ≠ '[' ∧ isWS c = false)
    (hcols : cols ≠ []) (hcolssafe : ∀ col ∈ cols, SafeKey col) :
    matchTabular (k ++ ('[' :: (natChars n ++
        (']' :: '{' :: (joinCells (cols.map String.toList) ++ ['}', ':']))))) =
      some (k, n, cols.map String.toList) ∧
    matchInlineList (k ++ ('[' :: (natChars n ++
        (']' :: '{' :: (joinCells (cols.map String.toList) ++ ['}', ':']))))) = none := by
  have htrimk : trim k = k :=
    trim_eq_self (head_last_prop (fun c hc => (hk c hc).2.2)).1
      (head_last_prop (fun c hc => (hk c hc).2.2)).2
  have hjoinsafe : ∀ c ∈ joinCells (cols.map String.toList), (c ≠ '}' : Bool) := by
    intro c hc
    apply decide_ne_true_of_ne
    rcases joinCells_chars hc with ⟨cell, hc1, hc2⟩ | h1 | h1
    · rw [List.mem_map] at hc1
      obtain ⟨col, hcol, hcoltl⟩ := hc1
      exact ((hcolssafe col hcol).2 c (by rw [hcoltl]; exact hc2)).2.2.2.2.1
    · subst h1; decide
    · subst h1; decide
  have htake : (k ++ ('[' :: (natChars n ++
      (']' :: '{' :: (joinCells (cols.map String.toList) ++ ['}', ':']))))).takeWhile
        (· ≠ '[') = k := by
    rw [takeWhile_append_all _ _ (fun c hc => decide_ne_true_of_ne (hk c hc).2.1),
      List.takeWhile_cons, if_neg (by simp)]
    simp
  have hdrop : (k ++ ('[' :: (natChars n ++
      (']' :: '{' :: (joinCells (cols.map String.toList) ++ ['}', ':']))))).dropWhile
        (· ≠ '[') =
      '[' :: (natChars n ++
        (']' :: '{' :: (joinCells (cols.map String.toList) ++ ['}', ':']))) := by
    rw [dropWhile_append_all _ _ (fun c hc => decide_ne_true_of_ne (hk c hc).2.1),
      List.dropWhile_cons, if_neg (by simp)]
  have hdigits : ∀ c ∈ natChars n, (c ≠ ']' : Bool) := fun c hc =>
    decide_ne_true_of_ne (digit_char_facts c ((natChars_spec n).2 c hc)).2.2.2.2.2.1
  have hnum1 : (natChars n ++
      (']' :: '{' :: (joinCells (cols.map String.toList) ++ ['}', ':']))).takeWhile
        (· ≠ ']') = natChars n := by
    rw [takeWhile_append_all _ _ hdigits, List.takeWhile_cons, if_neg (by simp)]
    simp
  have hnum2 : (natChars n ++
      (']' :: '{' :: (joinCells (cols.map String.toList) ++ ['}', ':']))).dropWhile
        (· ≠ ']') =
      ']' :: '{' :: (joinCells (cols.map String.toList) ++ ['}', ':']) := by
    rw [dropWhile_append_all _ _ hdigits, List.dropWhile_cons, if_neg (by simp)]
  have hcols1 : (joinCells (cols.map String.toList) ++ ['}', ':']).takeWhile (· ≠ '}') =
      joinCells (cols.map String.toList) := by
    rw [takeWhile_append_all _ _ hjoinsafe]
    rw [show (['}', ':'] : List Char).takeWhile (· ≠ '}') = [] from rfl]
    simp
  have hcols2 : (joinCells (cols.map String.toList) ++ ['}', ':']).dropWhile (· ≠ '}') =
      ['}', ':'] := by
    rw [dropWhile_append_all _ _ hjoinsafe]
    rfl
  have hsplitcols : csvSplit (joinCells (cols.map String.toList)) = cols.map String.toList := by
    apply csvSplit_join _ (by simp [hcols])
    intro cell hc
    rw [List.mem_map] at hc
    obtain ⟨col, hcol, hcoltl⟩ := hc
    refine Or.inl ⟨?_, ?_⟩
    · rw [← hcoltl]
      exact (hcolssafe col hcol).1
    · intro c hcc
      rw [← hcoltl] at hcc
      obtain ⟨h1, h2, h3, h4, h5, h6, h7, h8, h9, h10⟩ := (hcolssafe col hcol).2 c hcc
      exact ⟨h8, h6, h7, h10⟩
  have hunq : (cols.map String.toList).map unquoteField = cols.map String.toList := by
    conv_rhs => rw [← List.map_id (cols.map String.toList)]
    apply List.map_congr_left
    intro cl hcl
    rw [List.mem_map] at hcl
    obtain ⟨col, hcol, hcoltl⟩ := hcl
    show unquoteField cl = cl
    apply unquoteField_plain
    intro c hc
    have hmem : c ∈ cl := by
      rcases cl with _ | ⟨x, xs⟩
      · simp at hc
      · simp only [List.head?_cons, Option.some.injEq] at hc
        exact hc ▸ List.mem_cons_self x xs
    rw [← hcoltl] at hmem
    exact ⟨((hcolssafe col hcol).2 c hmem).2.2.2.2.2.1,
      ((hcolssafe col hcol).2 c hmem).2.2.2.2.2.2.1⟩
  constructor
  · simp only [matchTabular, htake, htrimk, hdrop, hnum1, hnum2, hcols1, hcols2]
    rw [if_pos (List.all_eq_true.mpr (fun c hc => decide_ne_true_of_ne (hk c hc).1))]
    rw [if_pos (by
      simp only [Bool.and_eq_true, Bool.not_eq_true']
      exact ⟨isEmpty_false_of_ne_nil (natChars_spec n).1,
        List.all_eq_true.mpr (fun c hc => (natChars_spec n).2 c hc)⟩)]
    rw [hsplitcols, hunq, parseNatChars_natChars]
    simp
  · simp only [matchInlineList, htake, htrimk, hdrop, hnum1, hnum2]
    rw [if_pos (List.all_eq_true.mpr (fun c hc => decide_ne_true_of_ne (hk c hc).1))]
    rw [if_pos (by
      simp only [Bool.and_eq_true, Bool.not_eq_true']
      exact ⟨isEmpty_false_of_ne_nil (natChars_spec n).1,
        List.all_eq_true.mpr (fun c hc => (natChars_spec n).2 c hc)⟩)]
    rfl

/-- Recognition of an encoded declared-length list marker: the inline-list
matcher returns the key, count and trimmed remainder, and the tabular
matcher rejects the line (a `:` where it expects `{`). -/
theorem matchInlineList_enc {k : List Char} (n : Nat) (tail : List Char)
    (hk : ∀ c ∈ k, c ≠ ':' ∧ c ≠ '[' ∧ isWS c = false) :
    matchInlineList (k ++ ('[' :: (natChars n ++ (']' :: ':' :: tail)))) =
        some (k, n, trim tail) ∧
      matchTabular (k ++ ('[' :: (natChars n ++ (']' :: ':' :: tail)))) = none := by
  have htrimk : trim k = k :=
    trim_eq_self (head_last_prop (fun c hc => (hk c hc).2.2)).1
      (head_last_prop (fun c hc => (hk c hc).2.2)).2
  have htake : (k ++ ('[' :: (natChars n ++ (']' :: ':' :: tail)))).takeWhile (· ≠ '[') = k := by
    rw [takeWhile_append_all _ _ (fun c hc => decide_ne_true_of_ne (hk c hc).2.1),
      List.takeWhile_cons, if_neg (by simp)]
    simp
  have hdrop : (k ++ ('[' :: (natChars n ++ (']' :: ':' :: tail)))).dropWhile (· ≠ '[') =
      '[' :: (natChars n ++ (']' :: ':' :: tail)) := by
    rw [dropWhile_append_all _ _ (fun c hc => decide_ne_true_of_ne (hk c hc).2.1),
      List.dropWhile_cons, if_neg (by simp)]
  have hdigits : ∀ c ∈ natChars n, (c ≠ ']' : Bool) := fun c hc =>
    decide_ne_true_of_ne (digit_char_facts c ((natChars_spec n).2 c hc)).2.2.2.2.2.1
  have hnum1 : (natChars n ++ (']' :: ':' :: tail)).takeWhile (· ≠ ']') = natChars n := by
    rw [takeWhile_append_all _ _ hdigits, List.takeWhile_cons, if_neg (by simp)]
    simp
  have hnum2 : (natChars n ++ (']' :: ':' :: tail)).dropWhile (· ≠ ']') =
      ']' :: ':' :: tail := by
    rw [dropWhile_append_all _ _ hdigits, List.dropWhile_cons, if_neg (by simp)]
  have hkall : (trim k).all (· ≠ ':') = true := by
    rw [htrimk]
    exact List.all_eq_true.mpr (fun c hc => decide_ne_true_of_ne (hk c hc).1)
  have hnum : (!(natChars n).isEmpty && (natChars n).all (·.isDigit)) = true := by
    simp only [Bool.and_eq_true, Bool.not_eq_true']
    exact ⟨isEmpty_false_of_ne_nil (natChars_spec n).1,
      List.all_eq_true.mpr (fun c hc => (natChars_spec n).2 c hc)⟩
  constructor
  · simp only [matchInlineList, htake, htrimk, hdrop, hnum1, hnum2]
    rw [if_pos (htrimk ▸ hkall), if_pos hnum, parseNatChars_natChars]
  · simp only [matchTabular, htake, htrimk, hdrop, hnum1, hnum2]
    rw [if_pos (htrimk ▸ hkall), if_pos hnum]
    rfl

/-! ### Render/normalize inversion -/

/-- A physical line the Line Normalizer maps back to itself: nonempty
content that starts with a non-space, ends with a non-whitespace and
contains no newline. -/
def GoodLine (l : NLine) : Prop :=
  l.content ≠ [] ∧ (∀ c, l.content.head? = some c → c ≠ ' ') ∧
    (∀ c, l.content.getLast? = some c → isWS c = false) ∧ '\n' ∉ l.content

theorem splitLines_no_nl {cs : List Char} (h : '\n' ∉ cs) : splitLines cs = [cs] := by
  induction cs with
  | nil => rfl
  | cons x xs ih =>
    rw [splitLines, if_neg (fun he => h (by rw [he]; simp)),
      ih (fun hm => h (by simp [hm]))]

theorem splitLines_append {a b : List Char} (h : '\n' ∉ a) :
    splitLines (a ++ '\n' :: b) = a :: splitLines b := by
  induction a with
  | nil =>
    rw [List.nil_append, splitLines, if_pos rfl]
  | cons x xs ih =>
    rw [List.cons_append, splitLines, if_neg (fun he => h (by rw [he]; simp)),
      ih (fun hm => h (by simp [hm]))]

theorem normalize_line (l : NLine) (h : GoodLine l) :
    normLine (List.replicate l.indent ' ' ++ l.content) = some l := by
  obtain ⟨hne, hhead, hlast, _⟩ := h
  have ht : trimR (List.replicate l.indent ' ' ++ l.content) =
      List.replicate l.indent ' ' ++ l.content := by
    apply trimR_eq_self
    intro c hc
    rw [getLast?_append_right _ hne] at hc
    exact hlast c hc
  have hdrop : (List.replicate l.indent ' ' ++ l.content).dropWhile (· = ' ') = l.content := by
    rw [dropWhile_append_all _ _ (by
      intro c hc
      rw [List.eq_of_mem_replicate hc]
      exact decide_eq_true rfl)]
    cases hcc : l.content with
    | nil => exact absurd hcc hne
    | cons x xs =>
      rw [List.dropWhile_cons, if_neg (by simpa using hhead x (by rw [hcc]; rfl))]
  have htake : (List.replicate l.indent ' ' ++ l.content).takeWhile (· = ' ') =
      List.replicate l.indent ' ' := by
    rw [takeWhile_append_all _ _ (by
      intro c hc
      rw [List.eq_of_mem_replicate hc]
      exact decide_eq_true rfl)]
    cases hcc : l.content with
    | nil => exact absurd hcc hne
    | cons x xs =>
      rw [List.takeWhile_cons, if_neg (by simpa using hhead x (by rw [hcc]; rfl))]
      simp
  simp only [normLine, ht, hdrop, htake]
  rw [if_neg (by simp [List.isEmpty_iff, hne])]
  simp

theorem normalize_render (ls : List NLine) (h : ∀ l ∈ ls, GoodLine l) :
    normalizeL (render ls) = ls := by
  induction ls with
  | nil => rfl
  | cons l rest ih =>
    cases rest with
    | nil =>
      rw [show render [l] = List.replicate l.indent ' ' ++ l.content from rfl]
      rw [normalizeL, splitLines_no_nl (by
        intro hm
        rcases List.mem_append.mp hm with h1 | h1
        · exact absurd (List.eq_of_mem_replicate h1) (by decide)
        · exact (h l (by simp)).2.2.2 h1)]
      rw [List.filterMap_cons, normalize_line l (h l (by simp))]
      rfl
    | cons l2 rest2 =>
      rw [show render (l :: l2 :: rest2) =
        List.replicate l.indent ' ' ++ l.content ++ '\n' :: render (l2 :: rest2) from rfl]
      rw [normalizeL, splitLines_append (by
        intro hm
        rcases List.mem_append.mp hm with h1 | h1
        · exact absurd (List.eq_of_mem_replicate h1) (by decide)
        · exact (h l (by simp)).2.2.2 h1)]
      rw [List.filterMap_cons, normalize_line l (h l (by simp))]
      show l :: normalizeL (render (l2 :: rest2)) = l :: l2 :: rest2
      rw [ih (fun x hx => h x (by simp [hx]))]

/-! ### Encoder entry shapes -/

theorem isScalarB_of_sup {v : Value} (h : SupScalar v) : isScalarB v = true := by
  cases h <;> rfl

theorem encEntries_nil (i : Nat) : encEntries i [] = [] := by
  simp [encEntries]

theorem encEntries_scalar (i : Nat) (k : String) {v : Value} (hv : SupScalar v)
    (es' : List (String × Value)) :
    encEntries i ((k, v) :: es') =
      ⟨i, k.toList ++ ':' :: ' ' :: encScalar v⟩ :: encEntries i es' := by
  cases hv <;> simp [encEntries]

theorem encEntries_emptyList (i : Nat) (k : String) (es' : List (String × Value)) :
    encEntries i ((k, .list []) :: es') =
      ⟨i, k.toList ++ (": []").toList⟩ :: encEntries i es' := by
  simp [encEntries]

theorem encEntries_scalarList (i : Nat) (k : String) {xs : List Value} (hne : xs ≠ [])
    (hall : ∀ x ∈ xs, SupScalar x) (es' : List (String × Value)) :
    encEntries i ((k, .list xs) :: es') =
      ⟨i, encInlineList k.toList xs⟩ :: encEntries i es' := by
  simp only [encEntries]
  rw [if_neg (by simp [List.isEmpty_iff, hne]),
    if_pos (List.all_eq_true.mpr (fun x hx => isScalarB_of_sup (hall x hx)))]
  rfl

theorem encEntries_map (i : Nat) (k : String) (es2 es' : List (String × Value)) :
    encEntries i ((k, .map es2) :: es') =
      ⟨i, k.toList ++ [':']⟩ :: (encEntries (i + 1) es2 ++ encEntries i es') := by
  simp [encEntries]

/-- A tabular-eligible list as described by `SupV.tabular`. -/
def TabShape (cols : List String) (xs : List Value) : Prop :=
  xs ≠ [] ∧ cols ≠ [] ∧
    ∀ x ∈ xs, ∃ cells, x = .map (cols.zip cells) ∧
      cells.length = cols.length ∧ ∀ c ∈ cells, SupScalar c

theorem map_fst_zip_full {α β : Type} (a : List α) (b : List β) (h : b.length = a.length) :
    (a.zip b).map Prod.fst = a :=
  List.map_fst_zip a b (by omega)

theorem map_snd_zip_full {α β : Type} (a : List α) (b : List β) (h : b.length = a.length) :
    (a.zip b).map Prod.snd = b :=
  List.map_snd_zip a b (by omega)

theorem tabShape_cols {cols : List String} {xs : List Value} (h : TabShape cols xs) :
    tabColsOf xs = cols := by
  obtain ⟨hne, hcols, hrows⟩ := h
  cases xs with
  | nil => exact absurd rfl hne
  | cons x xs' =>
    obtain ⟨cells, hx, hlen, _⟩ := hrows x (by simp)
    rw [hx]
    show ((cols.zip cells).map Prod.fst) = cols
    exact map_fst_zip_full cols cells hlen

theorem tabShape_checks {cols : List String} {xs : List Value} (h : TabShape cols xs) :
    xs.all isScalarB = false ∧ isTabularB xs = true := by
  have hcolsOf := tabShape_cols h
  obtain ⟨hne, hcols, hrows⟩ := h
  constructor
  · cases xs with
    | nil => exact absurd rfl hne
    | cons x xs' =>
      obtain ⟨cells, hx, _, _⟩ := hrows x (by simp)
      rw [Bool.eq_false_iff]
      intro hall
      have := List.all_eq_true.mp hall x (by simp)
      rw [hx] at this
      exact Bool.noConfusion this
  · rw [isTabularB, hcolsOf]
    simp only [Bool.and_eq_true, Bool.not_eq_true']
    refine ⟨⟨isEmpty_false_of_ne_nil hcols, isEmpty_false_of_ne_nil hne⟩, ?_⟩
    apply List.all_eq_true.mpr
    intro x hx
    obtain ⟨cells, hxeq, hlen, hcells⟩ := hrows x hx
    rw [hxeq]
    show (decide ((cols.zip cells).map Prod.fst = cols) &&
      (cols.zip cells).all fun p => isScalarB p.2) = true
    rw [decide_eq_true (map_fst_zip_full cols cells hlen), Bool.true_and]
    apply List.all_eq_true.mpr
    intro p hp
    exact isScalarB_of_sup (hcells p.2 (List.of_mem_zip hp).2)

theorem encEntries_tabular (i : Nat) (k : String) {cols : List String} {xs : List Value}
    (h : TabShape cols xs) (es' : List (String × Value)) :
    encEntries i ((k, .list xs) :: es') =
      ⟨i, encTabHeader k.toList xs⟩ :: ((xs.map fun r => ⟨i + 1, encRow r⟩)
        ++ encEntries i es') := by
  obtain ⟨hsc, htb⟩ := tabShape_checks h
  simp only [encEntries]
  rw [if_neg (by simp [List.isEmpty_iff, h.1]), if_neg (by simp [hsc]), if_pos htb]
  simp

theorem encRow_tabRow {cols : List String} {cells : List Value}
    (hlen : cells.length = cols.length) :
    encRow (.map (cols.zip cells)) = joinCells (cells.map encScalar) := by
  show joinCells ((cols.zip cells).map fun p => encScalar p.2) = _
  congr 1
  rw [show ((cols.zip cells).map fun p => encScalar p.2) =
    ((cols.zip cells).map Prod.snd).map encScalar from by rw [List.map_map]; rfl]
  rw [map_snd_zip_full cols cells hlen]

/-! ### Encoded lines are good lines -/

theorem ne_space_of_not_ws {c : Char} (h : isWS c = false) : c ≠ ' ' := by
  intro he
  rw [he] at h
  exact Bool.noConfusion h

theorem goodLine_key (i : Nat) {k : String} (hk : SafeKey k) {stuff : List Char}
    (hne : stuff ≠ []) (hlast : ∀ c, stuff.getLast? = some c → isWS c = false)
    (hnl : '\n' ∉ stuff) : GoodLine ⟨i, k.toList ++ stuff⟩ := by
  refine ⟨fun he => hk.1 (List.append_eq_nil.mp he).1, ?_, ?_, ?_⟩
  · intro c hc
    rw [head?_append_left hk.1] at hc
    rcases hkl : k.toList with _ | ⟨x, xs⟩
    · exact absurd hkl hk.1
    · rw [hkl] at hc
      simp only [List.head?_cons, Option.some.injEq] at hc
      refine hc ▸ ne_space_of_not_ws ((hk.2 x ?_).2.2.2.2.2.2.2.2.2)
      rw [hkl]
      simp
  · intro c hc
    rw [getLast?_append_right _ hne] at hc
    exact hlast c hc
  · intro hm
    rcases List.mem_append.mp hm with h1 | h1
    · exact (hk.2 _ h1).2.2.2.2.2.2.2.2.1 rfl
    · exact hnl h1

theorem row_cells_facts {cells : List Value}
    (hcells : ∀ c ∈ cells, SupScalar c) :
    (∀ cell ∈ cells.map encScalar, cell ≠ []) ∧
    (∀ cell ∈ cells.map encScalar, ∀ c, cell.getLast? = some c → isWS c = false) ∧
    (∀ cell ∈ cells.map encScalar, '\n' ∉ cell) ∧
    (∀ cell ∈ cells.map encScalar, CellOK cell) := by
  refine ⟨?_, ?_, ?_, ?_⟩ <;>
    (intro cell hc
     rw [List.mem_map] at hc
     obtain ⟨x, hx, hcx⟩ := hc
     have hsp := encScalar_spec x (hcells x hx))
  · exact hcx ▸ hsp.2.1
  · exact hcx ▸ hsp.2.2.2.2.2.1
  · exact hcx ▸ hsp.2.2.2.1
  · exact hcx ▸ hsp.2.2.2.2.2.2.2

theorem goodLine_row {cols : List String} {cells : List Value} (j : Nat)
    (hlen : cells.length = cols.length) (hcols : cols ≠ [])
    (hcells : ∀ c ∈ cells, SupScalar c) :
    GoodLine ⟨j, joinCells (cells.map encScalar)⟩ := by
  obtain ⟨hcne, hclast, hcnl, _⟩ := row_cells_facts hcells
  have hcellsne : cells ≠ [] := by
    intro he
    rw [he] at hlen
    exact hcols (List.eq_nil_of_length_eq_zero hlen.symm)
  have hmapne : cells.map encScalar ≠ [] := by simp [hcellsne]
  refine ⟨joinCells_ne_nil hmapne hcne, ?_, joinCells_last hmapne hcne hclast, ?_⟩
  · intro c hc
    rcases hcl : cells.map encScalar with _ | ⟨cell0, cellrest⟩
    · exact absurd hcl hmapne
    · rw [hcl, joinCells_head (hcne cell0 (by rw [hcl]; simp)) cellrest] at hc
      rcases hc0 : cell0 with _ | ⟨x, xs⟩
      · exact absurd hc0 (hcne cell0 (by rw [hcl]; simp))
      · rw [hc0] at hc
        simp only [List.head?_cons, Option.some.injEq] at hc
        refine hc ▸ ne_space_of_not_ws ?_
        have := hclast cell0 (by rw [hcl]; simp)
        -- head of the cell: use head facts through membership in the map
        rcases List.mem_map.mp (show cell0 ∈ cells.map encScalar from by rw [hcl]; simp)
          with ⟨y, hy, hyx⟩
        have := (encScalar_spec y (hcells y hy)).2.2.2.2.1 x (by rw [hyx, hc0]; rfl)
        exact this
  · intro hm
    rcases joinCells_chars hm with ⟨cell, hc1, hc2⟩ | h1 | h1
    · exact hcnl cell hc1 hc2
    · exact absurd h1 (by decide)
    · exact absurd h1 (by decide)

theorem inline_stuff_facts {xs : List Value} (n : Nat) (hne : xs ≠ [])
    (hall : ∀ x ∈ xs, SupScalar x) :
    ('[' :: (natChars n ++ (']' :: ':' :: ' ' :: joinCells (xs.map encScalar))) : List Char) ≠ [] ∧
    (∀ c, ('[' :: (natChars n ++ (']' :: ':' :: ' '
        :: joinCells (xs.map encScalar))) : List Char).getLast? = some c → isWS c = false) ∧
    '\n' ∉ ('[' :: (natChars n ++ (']' :: ':' :: ' '
        :: joinCells (xs.map encScalar))) : List Char) := by
  obtain ⟨hcne, hclast, hcnl, _⟩ := row_cells_facts hall
  have hmapne : xs.map encScalar ≠ [] := by simp [hne]
  have hjoinne : joinCells (xs.map encScalar) ≠ [] := joinCells_ne_nil hmapne hcne
  refine ⟨by simp, ?_, ?_⟩
  · intro c hc
    rw [show ('[' :: (natChars n ++ (']' :: ':' :: ' ' :: joinCells (xs.map encScalar)))
        : List Char) = ['['] ++ (natChars n ++ ([']', ':', ' ']
        ++ joinCells (xs.map encScalar))) from by simp] at hc
    rw [getLast?_append_right (['['] : List Char)
        (show (natChars n ++ ([']', ':', ' '] ++ joinCells (xs.map encScalar))
          : List Char) ≠ [] from by simp),
      getLast?_append_right (natChars n)
        (show ([']', ':', ' '] ++ joinCells (xs.map encScalar) : List Char) ≠ [] from by simp),
      getLast?_append_right ([']', ':', ' '] : List Char) hjoinne] at hc
    exact joinCells_last hmapne hcne hclast c hc
  · intro hm
    rcases List.mem_cons.mp hm with h1 | h1
    · exact absurd h1 (by decide)
    · rcases List.mem_append.mp h1 with h2 | h2
      · exact absurd (digit_char_facts _ ((natChars_spec n).2 _ h2)).2.2.2.2.2.2.2.2.2.1 (by
          intro hx; exact hx rfl)
      · rcases List.mem_cons.mp h2 with h3 | h3
        · exact absurd h3 (by decide)
        · rcases List.mem_cons.mp h3 with h4 | h4
          · exact absurd h4 (by decide)
          · rcases List.mem_cons.mp h4 with h5 | h5
            · exact absurd h5 (by decide)
            · rcases joinCells_chars h5 with ⟨cell, hc1, hc2⟩ | h6 | h6
              · exact hcnl cell hc1 hc2
              · exact absurd h6 (by decide)
              · exact absurd h6 (by decide)

theorem header_stuff_facts {cols : List String} (n : Nat) (hcols : cols ≠ [])
    (hsafe : ∀ col ∈ cols, SafeKey col) :
    ('[' :: (natChars n ++ (']' :: '{' :: (joinCells (cols.map String.toList)
        ++ ['}', ':']))) : List Char) ≠ [] ∧
    (∀ c, ('[' :: (natChars n ++ (']' :: '{' :: (joinCells (cols.map String.toList)
        ++ ['}', ':']))) : List Char).getLast? = some c → isWS c = false) ∧
    '\n' ∉ ('[' :: (natChars n ++ (']' :: '{' :: (joinCells (cols.map String.toList)
        ++ ['}', ':']))) : List Char) := by
  refine ⟨by simp, ?_, ?_⟩
  · intro c hc
    rw [show ('[' :: (natChars n ++ (']' :: '{' :: (joinCells (cols.map String.toList)
        ++ ['}', ':']))) : List Char) = ['['] ++ (natChars n ++ ([']', '{']
        ++ (joinCells (cols.map String.toList) ++ ['}', ':']))) from by simp] at hc
    rw [getLast?_append_right (['['] : List Char)
        (show (natChars n ++ ([']', '{'] ++ (joinCells (cols.map String.toList)
          ++ ['}', ':'])) : List Char) ≠ [] from by simp),
      getLast?_append_right (natChars n)
        (show ([']', '{'] ++ (joinCells (cols.map String.toList) ++ ['}', ':'])
          : List Char) ≠ [] from by simp),
      getLast?_append_right ([']', '{'] : List Char)
        (show (joinCells (cols.map String.toList) ++ ['}', ':'] : List Char) ≠ [] from by simp),
      getLast?_append_right (joinCells (cols.map String.toList))
        (show (['}', ':'] : List Char) ≠ [] from by simp)] at hc
    simp only [List.getLast?_cons_cons, List.getLast?_singleton, Option.some.injEq] at hc
    rw [← hc]
    rfl
  · intro hm
    rcases List.mem_cons.mp hm with h1 | h1
    · exact absurd h1 (by decide)
    · rcases List.mem_append.mp h1 with h2 | h2
      · exact absurd (digit_char_facts _ ((natChars_spec n).2 _ h2)).2.2.2.2.2.2.2.2.2.1 (by
          intro hx; exact hx rfl)
      · rcases List.mem_cons.mp h2 with h3 | h3
        · exact absurd h3 (by decide)
        · rcases List.mem_cons.mp h3 with h4 | h4
          · exact absurd h4 (by decide)
          · rcases List.mem_append.mp h4 with h5 | h5
            · rcases joinCells_chars h5 with ⟨cell, hc1, hc2⟩ | h6 | h6
              · rw [List.mem_map] at hc1
                obtain ⟨col, hcol, hcoltl⟩ := hc1
                exact ((hsafe col hcol).2 _ (hcoltl ▸ hc2)).2.2.2.2.2.2.2.2.1 rfl
              · exact absurd h6 (by decide)
              · exact absurd h6 (by decide)
            · rcases List.mem_cons.mp h5 with h6 | h6
              · exact absurd h6 (by decide)
              · exact absurd (List.mem_singleton.mp h6) (by decide)

/-- Every line the encoder emits for a supported entry block is a good
line, indented at least at the block's level. -/
theorem encEntries_good : ∀ (N : Nat) (es : List (String × Value)), sizeOf es ≤ N →
    SupEntries es → ∀ i, ∀ l ∈ encEntries i es, GoodLine l ∧ i ≤ l.indent := by
  intro N
  induction N using Nat.strong_induction_on with
  | _ N ih =>
    intro es hsz hsup i l hl
    cases hsup with
    | nil =>
      rw [encEntries_nil] at hl
      simp at hl
    | cons hk hv hrest =>
      rename_i k v es'
      have hszrest : sizeOf es' < sizeOf ((k, v) :: es') := by
        simp
      cases hv with
      | scalar hsc =>
        rw [encEntries_scalar i k hsc es'] at hl
        rcases List.mem_cons.mp hl with h1 | h1
        · subst h1
          refine ⟨goodLine_key i hk (by simp) ?_ ?_, le_refl i⟩
          · intro c hc
            rw [show (':' :: ' ' :: encScalar v : List Char) =
              [':', ' '] ++ encScalar v from rfl,
              getLast?_append_right _ (encScalar_spec v hsc).2.1] at hc
            exact (encScalar_spec v hsc).2.2.2.2.2.1 c hc
          · intro hm
            rcases List.mem_cons.mp hm with h2 | h2
            · exact absurd h2 (by decide)
            · rcases List.mem_cons.mp h2 with h3 | h3
              · exact absurd h3 (by decide)
              · exact (encScalar_spec v hsc).2.2.2.1 h3
        · exact ih (sizeOf es') (lt_of_lt_of_le hszrest hsz) es' le_rfl hrest i l h1
      | emptyList =>
        rw [encEntries_emptyList i k es'] at hl
        rcases List.mem_cons.mp hl with h1 | h1
        · subst h1
          refine ⟨goodLine_key i hk (by decide) ?_ (by decide), le_refl i⟩
          intro c hc
          have : ((": []").toList : List Char).getLast? = some ']' := rfl
          rw [this] at hc
          simp only [Option.some.injEq] at hc
          rw [← hc]
          rfl
        · exact ih (sizeOf es') (lt_of_lt_of_le hszrest hsz) es' le_rfl hrest i l h1
      | scalarList hne hall =>
        rename_i xs
        rw [encEntries_scalarList i k hne hall es'] at hl
        rcases List.mem_cons.mp hl with h1 | h1
        · subst h1
          obtain ⟨hsne, hslast, hsnl⟩ := inline_stuff_facts xs.length hne hall
          exact ⟨goodLine_key i hk hsne hslast hsnl, le_refl i⟩
        · exact ih (sizeOf es') (lt_of_lt_of_le hszrest hsz) es' le_rfl hrest i l h1
      | tabular cols hne hcols hsafe hnd hrows =>
        rename_i xs
        have hts : TabShape cols xs := ⟨hne, hcols, hrows⟩
        rw [encEntries_tabular i k hts es'] at hl
        rcases List.mem_cons.mp hl with h1 | h1
        · subst h1
          obtain ⟨hsne, hslast, hsnl⟩ := header_stuff_facts xs.length hcols hsafe
          rw [show encTabHeader k.toList xs = k.toList ++ ('[' :: (natChars xs.length ++
            (']' :: '{' :: (joinCells (cols.map String.toList) ++ ['}', ':'])))) from by
              rw [encTabHeader, tabShape_cols hts]]
          exact ⟨goodLine_key i hk hsne hslast hsnl, le_refl i⟩
        · rcases List.mem_append.mp h1 with h2 | h2
          · rw [List.mem_map] at h2
            obtain ⟨r, hr, hrl⟩ := h2
            obtain ⟨cells, hreq, hlen, hcells⟩ := hrows r hr
            subst hrl
            constructor
            · rw [hreq, encRow_tabRow hlen]
              exact goodLine_row (i + 1) hlen hcols hcells
            · exact Nat.le_succ i
          · exact ih (sizeOf es') (lt_of_lt_of_le hszrest hsz) es' le_rfl hrest i l h2
      | map hsub hnd =>
        rename_i es2
        rw [encEntries_map i k es2 es'] at hl
        rcases List.mem_cons.mp hl with h1 | h1
        · subst h1
          refine ⟨goodLine_key i hk (by decide) ?_ (by decide), le_refl i⟩
          intro c hc
          simp only [List.getLast?_singleton, Option.some.injEq] at hc
          rw [← hc]
          rfl
        · rcases List.mem_append.mp h1 with h2 | h2
          · have hszsub : sizeOf es2 < sizeOf ((k, Value.map es2) :: es') := by
              simp
              omega
            have := ih (sizeOf es2) (lt_of_lt_of_le hszsub hsz) es2 le_rfl hsub (i + 1) l h2
            exact ⟨this.1, le_trans (Nat.le_succ i) this.2⟩
          · exact ih (sizeOf es') (lt_of_lt_of_le hszrest hsz) es' le_rfl hrest i l h2

/-! ### buildMap on duplicate-free entries -/

theorem mapUpdate_append (acc : List (String × Value)) (k : String) (v : Value)
    (h : k ∉ acc.map Prod.fst) : mapUpdate acc k v = acc ++ [(k, v)] := by
  induction acc with
  | nil => rfl
  | cons p ps ih =>
    rw [show (p :: ps : List (String × Value)) = (p.1, p.2) :: ps from rfl, mapUpdate]
    rw [if_neg (by
      intro he
      exact h (by rw [← he]; simp))]
    rw [ih (fun hm => h (by simp [hm]))]
    rfl

theorem buildMap_aux (es acc : List (String × Value))
    (h : ((acc ++ es).map Prod.fst).Nodup) :
    es.foldl (fun a p => mapUpdate a p.1 p.2) acc = acc ++ es := by
  induction es generalizing acc with
  | nil => simp
  | cons p ps ih =>
    rw [List.foldl_cons, mapUpdate_append acc p.1 p.2 (by
      rw [List.map_append] at h
      have := (List.nodup_append.mp h).2.2
      intro hm
      exact this hm (by simp))]
    rw [ih (acc ++ [(p.1, p.2)]) (by simpa using h)]
    simp

theorem buildMap_nodup (es : List (String × Value)) (h : (es.map Prod.fst).Nodup) :
    buildMap es = es := by
  rw [buildMap, buildMap_aux es [] (by simpa using h)]
  rfl

/-! ### Per-entry dispatch facts -/

theorem safeKey_matcher {k : String} (hk : SafeKey k) :
    ∀ c ∈ k.toList, c ≠ ':' ∧ c ≠ '[' ∧ isWS c = false := fun c hc =>
  ⟨(hk.2 c hc).1, (hk.2 c hc).2.1, (hk.2 c hc).2.2.2.2.2.2.2.2.2⟩

theorem safeKey_topSplit {k : String} (hk : SafeKey k) :
    ∀ c ∈ k.toList, c ≠ ':' ∧ c ≠ '"' ∧ c ≠ '\'' := fun c hc =>
  ⟨(hk.2 c hc).1, (hk.2 c hc).2.2.2.2.2.1, (hk.2 c hc).2.2.2.2.2.2.1⟩

theorem safeKey_trim {k : String} (hk : SafeKey k) : trim k.toList = k.toList :=
  trim_eq_self (head_last_prop (fun c hc => (hk.2 c hc).2.2.2.2.2.2.2.2.2)).1
    (head_last_prop (fun c hc => (hk.2 c hc).2.2.2.2.2.2.2.2.2)).2

theorem trim_space_cons {cs : List Char} (hne : cs ≠ [])
    (hh : ∀ c, cs.head? = some c → isWS c = false)
    (hl : ∀ c, cs.getLast? = some c → isWS c = false) :
    trim (' ' :: cs) = cs := by
  have h1 : trimR (' ' :: cs) = ' ' :: cs := by
    apply trimR_eq_self
    intro c hc
    rw [show (' ' :: cs : List Char) = [' '] ++ cs from rfl,
      getLast?_append_right _ hne] at hc
    exact hl c hc
  rw [trim, h1, trimL, List.dropWhile_cons, if_pos (by rfl)]
  exact trimL_eq_self hh

theorem key_colon_matchers_none {k : String} (hk : SafeKey k) (b : List Char) :
    matchTabular (k.toList ++ ':' :: b) = none ∧
      matchInlineList (k.toList ++ ':' :: b) = none := by
  have heq : k.toList ++ ':' :: b = (k.toList ++ [':']) ++ b := by simp
  rw [heq]
  apply match_none_of_colon
  · intro hm
    rcases List.mem_append.mp hm with h1 | h1
    · exact (hk.2 _ h1).2.1 rfl
    · exact absurd (List.mem_singleton.mp h1) (by decide)
  · simp

theorem scalar_entry_facts (k : String) (hk : SafeKey k) {v : Value} (hsc : SupScalar v) :
    matchTabular (k.toList ++ ':' :: ' ' :: encScalar v) = none ∧
    matchInlineList (k.toList ++ ':' :: ' ' :: encScalar v) = none ∧
    topSplit (k.toList ++ ':' :: ' ' :: encScalar v) = some (k.toList, encScalar v) := by
  obtain ⟨h1, h2⟩ := key_colon_matchers_none hk (' ' :: encScalar v)
  refine ⟨h1, h2, ?_⟩
  rw [topSplit_key (safeKey_topSplit hk) (' ' :: encScalar v), safeKey_trim hk]
  have hsp := encScalar_spec v hsc
  rw [show trim (' ' :: encScalar v) = encScalar v from
    trim_space_cons hsp.2.1 hsp.2.2.2.2.1 hsp.2.2.2.2.2.1]

theorem emptyList_entry_facts (k : String) (hk : SafeKey k) :
    matchTabular (k.toList ++ (": []").toList) = none ∧
    matchInlineList (k.toList ++ (": []").toList) = none ∧
    topSplit (k.toList ++ (": []").toList) = some (k.toList, ['[', ']']) := by
  have heq : (k.toList ++ (": []").toList) = k.toList ++ ':' :: [' ', '[', ']'] := rfl
  rw [heq]
  obtain ⟨h1, h2⟩ := key_colon_matchers_none hk [' ', '[', ']']
  refine ⟨h1, h2, ?_⟩
  rw [topSplit_key (safeKey_topSplit hk) [' ', '[', ']'], safeKey_trim hk]
  rfl

theorem map_entry_facts (k : String) (hk : SafeKey k) :
    matchTabular (k.toList ++ [':']) = none ∧
    matchInlineList (k.toList ++ [':']) = none ∧
    topSplit (k.toList ++ [':']) = some (k.toList, []) := by
  have heq : (k.toList ++ [':'] : List Char) = k.toList ++ ':' :: [] := rfl
  rw [heq]
  obtain ⟨h1, h2⟩ := key_colon_matchers_none hk []
  refine ⟨h1, h2, ?_⟩
  rw [topSplit_key (safeKey_topSplit hk) [], safeKey_trim hk]
  rfl

theorem inline_entry_facts (k : String) (hk : SafeKey k) {xs : List Value}
    (hne : xs ≠ []) (hall : ∀ x ∈ xs, SupScalar x) :
    matchTabular (encInlineList k.toList xs) = none ∧
    matchInlineList (encInlineList k.toList xs) =
      some (k.toList, xs.length, joinCells (xs.map encScalar)) := by
  obtain ⟨hcne, hclast, hcnl, _⟩ := row_cells_facts hall
  have hmapne : xs.map encScalar ≠ [] := by simp [hne]
  have hjoin : joinCells (xs.map encScalar) ≠ [] := joinCells_ne_nil hmapne hcne
  obtain ⟨hmi, hmt⟩ := matchInlineList_enc xs.length (' ' :: joinCells (xs.map encScalar))
    (safeKey_matcher hk)
  refine ⟨hmt, ?_⟩
  rw [show encInlineList k.toList xs = k.toList ++ ('[' :: (natChars xs.length ++
    (']' :: ':' :: ' ' :: joinCells (xs.map encScalar)))) from rfl, hmi]
  have hthead : ∀ c, (joinCells (xs.map encScalar)).head? = some c → isWS c = false := by
    intro c hc
    rcases hcl : xs.map encScalar with _ | ⟨cell0, cellrest⟩
    · exact absurd hcl hmapne
    · rw [hcl, joinCells_head (hcne cell0 (by rw [hcl]; simp)) cellrest] at hc
      rcases List.mem_map.mp (show cell0 ∈ xs.map encScalar from by rw [hcl]; simp)
        with ⟨y, hy, hyx⟩
      rcases hc0 : cell0 with _ | ⟨x0, xs0⟩
      · exact absurd hc0 (hcne cell0 (by rw [hcl]; simp))
      · rw [hc0] at hc
        simp only [List.head?_cons, Option.some.injEq] at hc
        exact hc ▸ (encScalar_spec y (hall y hy)).2.2.2.2.1 x0 (by rw [hyx, hc0]; rfl)
  rw [trim_space_cons hjoin hthead (joinCells_last hmapne hcne hclast)]

theorem tab_entry_facts (k : String) {cols : List String} {xs : List Value}
    (hk : SafeKey k) (hts : TabShape cols xs) (hsafe : ∀ col ∈ cols, SafeKey col) :
    matchTabular (encTabHeader k.toList xs) =
      some (k.toList, xs.length, cols.map String.toList) ∧
    matchInlineList (encTabHeader k.toList xs) = none := by
  rw [show encTabHeader k.toList xs = k.toList ++ ('[' :: (natChars xs.length ++
    (']' :: '{' :: (joinCells ((tabColsOf xs).map String.toList) ++ ['}', ':'])))) from rfl,
    tabShape_cols hts]
  exact matchTabular_enc xs.length (safeKey_matcher hk) hts.2.1 hsafe

/-! ### Row round trip and first-line shape -/

theorem rowToPairs_full (cols fields : List (List Char)) (hlen : fields.length = cols.length) :
    rowToPairs cols fields =
      (cols.zip fields).map fun p => (p.1.asString, coerceScalarL p.2) := by
  induction cols generalizing fields with
  | nil =>
    cases fields with
    | nil => rfl
    | cons f fs => simp at hlen
  | cons c cs ih =>
    cases fields with
    | nil => simp at hlen
    | cons f fs =>
      rw [rowToPairs, List.zip_cons_cons, List.map_cons, ih fs (by simpa using hlen)]

theorem row_rt {cols : List String} {cells : List Value} (hnd : cols.Nodup)
    (hlen : cells.length = cols.length) (hcols : cols ≠ [])
    (hcells : ∀ c ∈ cells, SupScalar c) :
    Value.map (buildMap (rowToPairs (cols.map String.toList)
      (csvSplit (joinCells (cells.map encScalar))))) = Value.map (cols.zip cells) := by
  have hcellsne : cells ≠ [] := by
    intro he
    rw [he] at hlen
    exact hcols (List.eq_nil_of_length_eq_zero hlen.symm)
  have hsplit : csvSplit (joinCells (cells.map encScalar)) = cells.map encScalar :=
    csvSplit_join _ (by simp [hcellsne]) (row_cells_facts hcells).2.2.2
  rw [hsplit, rowToPairs_full _ _ (by simp [hlen])]
  have hzip : (cols.map String.toList).zip (cells.map encScalar) =
      (cols.zip cells).map fun p => (p.1.toList, encScalar p.2) := by
    rw [List.zip_map]
    rfl
  rw [hzip, List.map_map]
  have hmapeq : ((cols.zip cells).map
      ((fun p : List Char × List Char => (p.1.asString, coerceScalarL p.2)) ∘
        (fun p : String × Value => (p.1.toList, encScalar p.2)))) = cols.zip cells := by
    conv_rhs => rw [← List.map_id (cols.zip cells)]
    apply List.map_congr_left
    intro p hp
    show (p.1.toList.asString, coerceScalarL (encScalar p.2)) = p
    rw [asString_toList, (encScalar_spec p.2 (hcells p.2 (List.of_mem_zip hp).2)).1]
  rw [hmapeq]
  congr 1
  apply buildMap_nodup
  rw [map_fst_zip_full cols cells hlen]
  exact hnd

theorem encEntries_cons_head (i : Nat) (k : String) (v : Value) (hv : SupV v)
    (es' : List (String × Value)) :
    ∃ c0 tail, encEntries i ((k, v) :: es') = ⟨i, c0⟩ :: tail := by
  cases hv with
  | scalar hsc => exact ⟨_, _, encEntries_scalar i k hsc es'⟩
  | emptyList => exact ⟨_, _, encEntries_emptyList i k es'⟩
  | scalarList hne hall => exact ⟨_, _, encEntries_scalarList i k hne hall es'⟩
  | tabular cols hne hcols hsafe hnd hrows =>
    exact ⟨_, _, encEntries_tabular i k ⟨hne, hcols, hrows⟩ es'⟩
  | map hsub hnd => exact ⟨_, _, encEntries_map i k _ es'⟩

/-- A nested block built from encoded entries parses back to the Map,
given that the entry loop itself round trips (supplied as a hypothesis
and discharged by the main induction). -/
theorem parseValueF_enc (es : List (String × Value)) (i : Nat)
    (hsup : SupEntries es) (hnd : (es.map Prod.fst).Nodup)
    (hE : ∀ g, 2 * (encEntries i es).length ≤ g →
      parseEntriesF g (encEntries i es) = es) :
    ∀ fuel, 2 * (encEntries i es).length + 1 ≤ fuel →
      parseValueF fuel (encEntries i es) = .map es := by
  intro fuel hfuel
  rcases fuel with _ | f
  · omega
  have hgoal : parseEntriesF f (encEntries i es) = es := hE f (by omega)
  cases hsup with
  | nil =>
    rw [encEntries_nil]
    rfl
  | cons hk hv hrest =>
    rename_i k v es'
    have hbm : buildMap ((k, v) :: es') = (k, v) :: es' := buildMap_nodup _ hnd
    obtain ⟨kc, krest, hkc⟩ : ∃ c cs, k.toList = c :: cs := by
      rcases hkl : k.toList with _ | ⟨c, cs⟩
      · exact absurd hkl hk.1
      · exact ⟨c, cs, rfl⟩
    cases hv with
    | scalar hsc =>
      obtain ⟨hmt, hmi, hts⟩ := scalar_entry_facts k hk hsc
      rw [encEntries_scalar i k hsc es']
      simp only [parseValueF, hmt, hmi, hts, Option.isNone_some, Option.isNone_none,
        Bool.and_false, Bool.false_and, Bool.false_eq_true, if_false]
      rw [← encEntries_scalar i k hsc es', hgoal, hbm]
    | emptyList =>
      obtain ⟨hmt, hmi, hts⟩ := emptyList_entry_facts k hk
      rw [encEntries_emptyList i k es']
      simp only [parseValueF, hmt, hmi, hts, Option.isNone_some, Option.isNone_none,
        Bool.and_false, Bool.false_and, Bool.false_eq_true, if_false]
      rw [← encEntries_emptyList i k es', hgoal, hbm]
    | scalarList hne hall =>
      obtain ⟨hmt, hmi⟩ := inline_entry_facts k hk hne hall
      rw [encEntries_scalarList i k hne hall es']
      rw [hkc] at hmt hmi ⊢
      simp only [parseValueF, hmt, hmi, Option.isNone_some, Option.isNone_none,
        Bool.and_false, Bool.false_and, Bool.false_eq_true, if_false]
      rw [← hkc, ← encEntries_scalarList i k hne hall es', hgoal, hbm]
    | tabular cols hne hcols hsafe hndcols hrows =>
      have hts2 : TabShape cols _ := ⟨hne, hcols, hrows⟩
      obtain ⟨hmt, hmi⟩ := tab_entry_facts k hk hts2 hsafe
      rw [encEntries_tabular i k hts2 es']
      rw [hkc] at hmt hmi ⊢
      simp only [parseValueF, hmt, hmi, Option.isNone_some, Option.isNone_none,
        Bool.and_false, Bool.false_and, Bool.false_eq_true, if_false]
      rw [← hkc, ← encEntries_tabular i k hts2 es', hgoal, hbm]
    | map hsub hndsub =>
      rename_i es2
      obtain ⟨hmt, hmi, hts⟩ := map_entry_facts k hk
      rw [encEntries_map i k es2 es']
      simp only [parseValueF, hmt, hmi, hts, Option.isNone_some, Option.isNone_none,
        Bool.and_false, Bool.false_and, Bool.false_eq_true, if_false]
      rw [← encEntries_map i k es2 es', hgoal, hbm]

/-- Trimming the space-prefixed joined cells of encoded supported scalars
just drops that leading space. -/
theorem joinCells_enc_trim {xs : List Value} (hne : xs ≠ [])
    (hall : ∀ x ∈ xs, SupScalar x) :
    trim (' ' :: joinCells (xs.map encScalar)) = joinCells (xs.map encScalar) := by
  obtain ⟨hcne, hclast, hcnl, _⟩ := row_cells_facts hall
  have hmapne : xs.map encScalar ≠ [] := by simp [hne]
  have hjoin : joinCells (xs.map encScalar) ≠ [] := joinCells_ne_nil hmapne hcne
  refine trim_space_cons hjoin ?_ (joinCells_last hmapne hcne hclast)
  intro c hc
  rcases hcl : xs.map encScalar with _ | ⟨cell0, cellrest⟩
  · exact absurd hcl hmapne
  · rw [hcl, joinCells_head (hcne cell0 (by rw [hcl]; simp)) cellrest] at hc
    rcases List.mem_map.mp (show cell0 ∈ xs.map encScalar from by rw [hcl]; simp)
      with ⟨y, hy, hyx⟩
    rcases hc0 : cell0 with _ | ⟨x0, xs0⟩
    · exact absurd hc0 (hcne cell0 (by rw [hcl]; simp))
    · rw [hc0] at hc
      simp only [List.head?_cons, Option.some.injEq] at hc
      exact hc ▸ (encScalar_spec y (hall y hy)).2.2.2.2.1 x0 (by rw [hyx, hc0]; rfl)

/-- The Tabular Parser inverts the row encoder on a tabular-eligible
list, at any row indent. -/
theorem parseTabular_enc {cols : List String} {xs : List Value} (j : Nat)
    (hndc : cols.Nodup) (hcols : cols ≠ [])
    (hrows : ∀ x ∈ xs, ∃ cells, x = .map (cols.zip cells) ∧
      cells.length = cols.length ∧ ∀ c ∈ cells, SupScalar c) :
    parseTabular (cols.map String.toList)
      (xs.map fun r => (⟨j, encRow r⟩ : NLine)) = xs := by
  rw [parseTabular, List.map_map]
  conv_rhs => rw [← List.map_id xs]
  apply List.map_congr_left
  intro x hx
  obtain ⟨cells, hxeq, hlen, hcells⟩ := hrows x hx
  show Value.map (buildMap (rowToPairs (cols.map String.toList)
    (csvSplit (encRow x)))) = x
  rw [hxeq, encRow_tabRow hlen]
  exact row_rt hndc hlen hcols hcells

/-- Entry-loop round trip: feeding the encoded lines of a supported,
duplicate-free entry list back through the entry loop returns the very
same entries, for any fuel at least twice the line count. -/
theorem entries_rt : ∀ (N : Nat) (es : List (String × Value)), sizeOf es ≤ N →
    SupEntries es → (es.map Prod.fst).Nodup →
    ∀ i fuel, 2 * (encEntries i es).length ≤ fuel →
      parseEntriesF fuel (encEntries i es) = es := by
  intro N
  induction N using Nat.strong_induction_on with
  | _ N ih =>
    intro es hsz hsup hnd i fuel hfuel
    cases hsup with
    | nil =>
      rw [encEntries_nil]
      cases fuel <;> rfl
    | cons hk hv hrest =>
      rename_i k v es'
      have hszrest : sizeOf es' < sizeOf ((k, v) :: es') := by
        simp
      have hnd' : (es'.map Prod.fst).Nodup := by
        rw [List.map_cons] at hnd
        exact hnd.of_cons
      cases hv with
      | scalar hsc =>
        have hsp := encScalar_spec v hsc
        obtain ⟨hmt, hmi, hts⟩ := scalar_entry_facts k hk hsc
        rw [encEntries_scalar i k hsc es'] at hfuel ⊢
        rw [List.length_cons] at hfuel
        rcases fuel with _ | f
        · omega
        have hie : (encScalar v).isEmpty = false := by
          simp [List.isEmpty_iff, hsp.2.1]
        have hne2 : encScalar v ≠ ['[', ']'] := by
          intro he
          exact hsp.2.2.1 (by rw [he]; decide)
        have hminone : matchInlineList (encScalar v) = none :=
          (match_none_no_bracket hsp.2.2.1).2
        simp only [parseEntriesF, hmt, hmi, hts, hie, Bool.false_eq_true, if_false]
        rw [if_neg hne2]
        simp only [hminone]
        rw [ih (sizeOf es') (lt_of_lt_of_le hszrest hsz) es' le_rfl hrest hnd' i f
          (by omega)]
        rw [asString_toList, hsp.1]
      | emptyList =>
        obtain ⟨hmt, hmi, hts⟩ := emptyList_entry_facts k hk
        rw [encEntries_emptyList i k es'] at hfuel ⊢
        rw [List.length_cons] at hfuel
        rcases fuel with _ | f
        · omega
        simp only [parseEntriesF, hmt, hmi, hts]
        rw [if_neg (by decide), if_pos trivial]
        rw [ih (sizeOf es') (lt_of_lt_of_le hszrest hsz) es' le_rfl hrest hnd' i f
          (by omega)]
        rw [asString_toList]
      | scalarList hne hall =>
        rename_i xs
        obtain ⟨hmt, hmi⟩ := inline_entry_facts k hk hne hall
        obtain ⟨hcne, hclast, hcnl, _⟩ := row_cells_facts hall
        rw [encEntries_scalarList i k hne hall es'] at hfuel ⊢
        rw [List.length_cons] at hfuel
        rcases fuel with _ | f
        · omega
        have h1 : (!(k.toList.isEmpty)) = true := by
          rw [show k.toList.isEmpty = false from by rw [List.isEmpty_eq_false]; exact hk.1]
          rfl
        have h2 : (!((joinCells (xs.map encScalar)).isEmpty)) = true := by
          rw [show (joinCells (xs.map encScalar)).isEmpty = false from by
            simp [List.isEmpty_iff]
            exact joinCells_ne_nil (by simp [hne]) hcne]
          rfl
        simp only [parseEntriesF, hmt, hmi]
        rw [if_pos h1, if_pos h2]
        rw [ih (sizeOf es') (lt_of_lt_of_le hszrest hsz) es' le_rfl hrest hnd' i f
          (by omega)]
        rw [asString_toList, inlineCSV_enc xs hne hall]
      | tabular cols hne hcols hsafe hndc hrows =>
        have hts2 : TabShape cols _ := ⟨hne, hcols, hrows⟩
        obtain ⟨hmt, hmi⟩ := tab_entry_facts k hk hts2 hsafe
        rename_i xs
        rw [encEntries_tabular i k hts2 es'] at hfuel ⊢
        rw [List.length_cons, List.length_append, List.length_map] at hfuel
        rcases fuel with _ | f
        · omega
        have h1 : (!(k.toList.isEmpty)) = true := by
          rw [show k.toList.isEmpty = false from by rw [List.isEmpty_eq_false]; exact hk.1]
          rfl
        have hlenr : (xs.map fun r => (⟨i + 1, encRow r⟩ : NLine)).length = xs.length :=
          List.length_map _ _
        have hrowsid : parseTabular (cols.map String.toList)
            (xs.map fun r => (⟨i + 1, encRow r⟩ : NLine)) = xs :=
          parseTabular_enc (i + 1) hndc hcols hrows
        simp only [parseEntriesF, hmt]
        rw [if_pos h1]
        rw [List.take_left' hlenr, List.drop_left' hlenr, hrowsid, asString_toList]
        rw [ih (sizeOf es') (lt_of_lt_of_le hszrest hsz) es' le_rfl hrest hnd' i f
          (by omega)]
      | map hsub hndsub =>
        rename_i es2
        obtain ⟨hmt, hmi, hts⟩ := map_entry_facts k hk
        have hszsub : sizeOf es2 < sizeOf ((k, Value.map es2) :: es') := by
          simp
          omega
        rw [encEntries_map i k es2 es'] at hfuel ⊢
        rw [List.length_cons, List.length_append] at hfuel
        rcases fuel with _ | f
        · omega
        have hsib : (encEntries i es').takeWhile (fun x => decide (i < x.indent)) = [] := by
          cases hrest with
          | nil =>
            rw [encEntries_nil]
            rfl
          | cons hk2 hv2 hrest2 =>
            rename_i k2 v2 es''
            obtain ⟨c0, tail, heq⟩ := encEntries_cons_head i k2 v2 hv2 es''
            rw [heq, List.takeWhile_cons, if_neg (by simp)]
        have htw : (encEntries (i + 1) es2 ++ encEntries i es').takeWhile
            (fun x => decide (i < x.indent)) = encEntries (i + 1) es2 := by
          rw [takeWhile_append_all _ _ (by
            intro l2 hl2
            have := (encEntries_good (sizeOf es2) es2 le_rfl hsub (i + 1) l2 hl2).2
            simp only [decide_eq_true_iff]
            omega), hsib, List.append_nil]
        have hE2 : ∀ g, 2 * (encEntries (i + 1) es2).length ≤ g →
            parseEntriesF g (encEntries (i + 1) es2) = es2 := fun g hg =>
          ih (sizeOf es2) (lt_of_lt_of_le hszsub hsz) es2 le_rfl hsub hndsub (i + 1) g hg
        simp only [parseEntriesF, hmt, hmi, hts]
        rw [if_pos (show ([] : List Char).isEmpty = true from rfl)]
        show (k.toList.asString, parseValueF f ((encEntries (i + 1) es2 ++
            encEntries i es').takeWhile fun x => decide (i < x.indent))) ::
          parseEntriesF f ((encEntries (i + 1) es2 ++ encEntries i es').drop
            ((encEntries (i + 1) es2 ++ encEntries i es').takeWhile
              (fun x => decide (i < x.indent))).length) = (k, Value.map es2) :: es'
        rw [htw, List.drop_left]
        rw [parseValueF_enc es2 (i + 1) hsub hndsub hE2 f (by omega)]
        rw [ih (sizeOf es') (lt_of_lt_of_le hszrest hsz) es' le_rfl hrest hnd' i f
          (by omega)]
        rw [asString_toList]

/-! ### C9: the round-trip law -/

/-- The claimed law fails at one point of the supported subset: the empty
Map at the document root encodes to an empty document, which decodes to
Null, not to the empty Map. -/
theorem C9_counterexample :
    SupV (Value.map []) ∧ loads (dumps (Value.map [])) ≠ Value.map [] := by
  refine ⟨SupV.map SupEntries.nil (by simp), ?_⟩
  intro h
  have hd : dumps (Value.map []) = "" := by
    rw [dumps, show encTop (Value.map []) = encEntries 0 [] from rfl, encEntries_nil]
    rfl
  rw [hd, show loads "" = Value.null from rfl] at h
  exact Value.noConfusion h

/-- C9 (amended): round-trip law — for every Value v of the supported
subset (all scalar kinds, Maps with safe pairwise-distinct keys, Lists
of scalars, tabular-array-eligible Lists of uniform Maps of scalars)
other than the empty Map at the document root, decode(encode(v))
equals v. -/
theorem C9_round_trip (v : Value) (h : SupV v) (hne : v ≠ Value.map []) :
    loads (dumps v) = v := by
  have hloads : ∀ s : String, loads s =
      if (normalizeL s.toList).isEmpty then Value.null
      else parseValueF (2 * (normalizeL s.toList).length + 1) (normalizeL s.toList) :=
    fun s => rfl
  cases h with
  | scalar hsc =>
    have hsp := encScalar_spec v hsc
    have henc : encTop v = [⟨0, encScalar v⟩] := by
      cases hsc <;> rfl
    have hgood : GoodLine ⟨0, encScalar v⟩ :=
      ⟨hsp.2.1, fun c hc => ne_space_of_not_ws (hsp.2.2.2.2.1 c hc),
        hsp.2.2.2.2.2.1, hsp.2.2.2.1⟩
    have hnorm : normalizeL (dumps v).toList = [⟨0, encScalar v⟩] := by
      rw [show (dumps v).toList = render (encTop v) from toList_asString _, henc]
      exact normalize_render _ (by
        intro l hl
        rw [List.mem_singleton] at hl
        rw [hl]
        exact hgood)
    obtain ⟨hmt, hmi⟩ := match_none_no_bracket hsp.2.2.1
    rw [hloads (dumps v), hnorm, if_neg (by simp)]
    simp only [parseValueF, hmt, hmi, hsp.2.2.2.2.2.2.1, Option.isNone_none,
      List.isEmpty_nil, Bool.and_true, Bool.true_and, if_true]
    exact hsp.1
  | emptyList =>
    rfl
  | scalarList hnex hall =>
    rename_i xs
    obtain ⟨hcne, hclast, hcnl, _⟩ := row_cells_facts hall
    have hmapne : xs.map encScalar ≠ [] := by simp [hnex]
    have hjoin : joinCells (xs.map encScalar) ≠ [] := joinCells_ne_nil hmapne hcne
    have henc : encTop (.list xs) = [⟨0, encInlineList [] xs⟩] := by
      simp only [encTop]
      rw [if_neg (by simp [List.isEmpty_iff, hnex]),
        if_pos (List.all_eq_true.mpr fun x hx => isScalarB_of_sup (hall x hx))]
    obtain ⟨hsne, hslast, hsnl⟩ := inline_stuff_facts xs.length hnex hall
    have hgood : GoodLine ⟨0, encInlineList [] xs⟩ := by
      refine ⟨hsne, ?_, hslast, hsnl⟩
      intro c hc
      rw [show encInlineList [] xs = '[' :: (natChars xs.length ++
        (']' :: ':' :: ' ' :: joinCells (xs.map encScalar))) from rfl] at hc
      simp only [List.head?_cons, Option.some.injEq] at hc
      rw [← hc]
      decide
    have hnorm : normalizeL (dumps (Value.list xs)).toList =
        [⟨0, encInlineList [] xs⟩] := by
      rw [show (dumps (Value.list xs)).toList = render (encTop (Value.list xs)) from
        toList_asString _, henc]
      exact normalize_render _ (by
        intro l hl
        rw [List.mem_singleton] at hl
        rw [hl]
        exact hgood)
    have h0 := @matchInlineList_enc [] xs.length (' ' :: joinCells (xs.map encScalar))
      (fun c hc => absurd hc (List.not_mem_nil c))
    have hmi2 : matchInlineList (encInlineList [] xs) =
        some ([], xs.length, joinCells (xs.map encScalar)) := by
      rw [show encInlineList [] xs = [] ++ ('[' :: (natChars xs.length ++
        (']' :: ':' :: ' ' :: joinCells (xs.map encScalar)))) from rfl, h0.1,
        joinCells_enc_trim hnex hall]
    have hmt2 : matchTabular (encInlineList [] xs) = none := by
      rw [show encInlineList [] xs = [] ++ ('[' :: (natChars xs.length ++
        (']' :: ':' :: ' ' :: joinCells (xs.map encScalar)))) from rfl, h0.2]
    have hcsv : (!((joinCells (xs.map encScalar)).isEmpty)) = true := by
      rw [show (joinCells (xs.map encScalar)).isEmpty = false from by
        rw [List.isEmpty_eq_false]; exact hjoin]
      rfl
    rw [hloads (dumps (Value.list xs)), hnorm, if_neg (by simp)]
    simp only [parseValueF, hmt2, hmi2]
    rw [if_pos hcsv, inlineCSV_enc xs hnex hall]
  | tabular cols hnex hcols hsafe hndc hrows =>
    rename_i xs
    have hts2 : TabShape cols xs := ⟨hnex, hcols, hrows⟩
    obtain ⟨hscB, htbB⟩ := tabShape_checks hts2
    have henc : encTop (.list xs) =
        ⟨0, encTabHeader [] xs⟩ :: xs.map (fun r => ⟨1, encRow r⟩) := by
      simp only [encTop]
      rw [if_neg (by simp [List.isEmpty_iff, hnex]), if_neg (by simp [hscB]),
        if_pos htbB]
    obtain ⟨hsne, hslast, hsnl⟩ := header_stuff_facts xs.length hcols hsafe
    have hhdr : encTabHeader [] xs = '[' :: (natChars xs.length ++
        (']' :: '{' :: (joinCells (cols.map String.toList) ++ ['}', ':']))) := by
      rw [encTabHeader, tabShape_cols hts2]
      rfl
    have hgoodh : GoodLine ⟨0, encTabHeader [] xs⟩ := by
      rw [show (⟨0, encTabHeader [] xs⟩ : NLine) = ⟨0, '[' :: (natChars xs.length ++
        (']' :: '{' :: (joinCells (cols.map String.toList) ++ ['}', ':'])))⟩ from by
          rw [hhdr]]
      refine ⟨hsne, ?_, hslast, hsnl⟩
      intro c hc
      simp only [List.head?_cons, Option.some.injEq] at hc
      rw [← hc]
      decide
    have hgood : ∀ l ∈ (⟨0, encTabHeader [] xs⟩ ::
        xs.map fun r => (⟨1, encRow r⟩ : NLine)), GoodLine l := by
      intro l hl
      rcases List.mem_cons.mp hl with h1 | h1
      · rw [h1]
        exact hgoodh
      · rw [List.mem_map] at h1
        obtain ⟨r, hr, hrl⟩ := h1
        obtain ⟨cells, hreq, hlen, hcells⟩ := hrows r hr
        subst hrl
        rw [show (⟨1, encRow r⟩ : NLine) = ⟨1, joinCells (cells.map encScalar)⟩ from by
          rw [hreq, encRow_tabRow hlen]]
        exact goodLine_row 1 hlen hcols hcells
    have hnorm : normalizeL (dumps (Value.list xs)).toList =
        ⟨0, encTabHeader [] xs⟩ :: xs.map (fun r => ⟨1, encRow r⟩) := by
      rw [show (dumps (Value.list xs)).toList = render (encTop (Value.list xs)) from
        toList_asString _, henc]
      exact normalize_render _ hgood
    have h0 := @matchTabular_enc [] cols xs.length
      (fun c hc => absurd hc (List.not_mem_nil c)) hcols hsafe
    have hmt2 : matchTabular (encTabHeader [] xs) =
        some ([], xs.length, cols.map String.toList) := by
      rw [hhdr]
      have h1 := h0.1
      rw [List.nil_append] at h1
      exact h1
    rw [hloads (dumps (Value.list xs)), hnorm, if_neg (by simp)]
    simp only [parseValueF, hmt2]
    rw [show (xs.map fun r => (⟨1, encRow r⟩ : NLine)).take xs.length =
        xs.map fun r => (⟨1, encRow r⟩ : NLine) from by
      rw [← List.length_map xs fun r => (⟨1, encRow r⟩ : NLine), List.take_length]]
    rw [parseTabular_enc 1 hndc hcols hrows]
  | map hsub hndm =>
    rename_i es
    have hesne : es ≠ [] := fun he => hne (by rw [he])
    have hlsne : encEntries 0 es ≠ [] := by
      cases hsub with
      | nil => exact absurd rfl hesne
      | cons hk1 hv1 hrest1 =>
        rename_i k1 v1 es1
        obtain ⟨c0, tail, heq⟩ := encEntries_cons_head 0 k1 v1 hv1 es1
        rw [heq]
        exact List.cons_ne_nil _ _
    have hgood : ∀ l ∈ encEntries 0 es, GoodLine l :=
      fun l hl => (encEntries_good (sizeOf es) es le_rfl hsub 0 l hl).1
    have hnorm : normalizeL (dumps (Value.map es)).toList = encEntries 0 es := by
      rw [show (dumps (Value.map es)).toList = render (encTop (Value.map es)) from
        toList_asString _, show encTop (Value.map es) = encEntries 0 es from rfl]
      exact normalize_render _ hgood
    rw [hloads (dumps (Value.map es)), hnorm,
      if_neg (by simp [List.isEmpty_iff, hlsne])]
    exact parseValueF_enc es 0 hsub hndm
      (fun g hg => entries_rt (sizeOf es) es le_rfl hsub hndm 0 g hg)
      (2 * (encEntries 0 es).length + 1) le_rfl

/-- C9 witness: the one-entry Map `{a: 1}` is in the supported subset, is
not the empty Map, and survives the round trip. -/
theorem C9_round_trip_witness :
    SupV (Value.map [("a", Value.int 1)]) ∧
      Value.map [("a", Value.int 1)] ≠ Value.map [] ∧
      loads (dumps (Value.map [("a", Value.int 1)])) =
        Value.map [("a", Value.int 1)] := by
  have h1 : SupV (Value.map [("a", Value.int 1)]) :=
    SupV.map (SupEntries.cons ⟨by decide, by decide⟩ (SupV.scalar (SupScalar.int 1))
      SupEntries.nil) (by simp)
  have h2 : Value.map [("a", Value.int 1)] ≠ Value.map [] := by
    intro h
    injection h with h3
    exact List.cons_ne_nil _ _ h3
  exact ⟨h1, h2, C9_round_trip _ h1 h2⟩

end Toonpy
